import Mathlib

/-!
Shallow embedding of `gauss.py` (repository `gauss_latex`): the recursive
generator `gauss` that walks a matrix of exact rationals, mutating it in
place and yielding trace frames `(matrix-snapshot-or-absent,
explanation-or-absent)`.

Matrices are lists of rows of rationals (`Fraction` in the source is exact
rational arithmetic, embedded as `Rat`).  The Python generator is recursive
with mutation; we embed it as a pure function returning the list of all
yielded frames together with the final state of the mutated matrix.  The
recursion is driven by a fuel parameter: every recursive call of the source
increases `j` by one, so for a rectangular matrix of width `n` a fuel of
`n + 1` makes the fuel guard unreachable (proved below as fuel stability);
the `fuel = 0` branch is an artifact of the embedding, never taken on the
runs the theorems speak about.
-/

abbrev Row := List Rat

abbrev Mat := List Row

/-- Modelled from the spec: the explanation renderer (`exp_swap`,
`exp_divide`, `exp_minus` from the `helpers` module, which is not among the
sources) is, per the spec, a pure function of the explanation operands and
the formatting-mode flag.  We therefore record the constructor application
made at each call site of `gauss` as the explanation value itself. -/
inductive Exp where
  | swap (i r : Nat) (latex : Bool)
  | divide (d : Rat) (latex : Bool)
  | minus (factor : Rat) (i : Nat) (latex : Bool)
deriving DecidableEq

/-- The explanation mapping `{line nr: explanation}` of one frame, as an
association list in insertion order (row indices ascending, as produced by
the elimination loop of the source). -/
abbrev Expl := List (Nat × Exp)

/-- One trace frame: `(matrix snapshot or absent, explanations or absent)`.
The initial frame is `(some a, none)` (`yield (list(a), None)`), the
sentinel is `(none, some [])` (`yield (None, dict())`). -/
abbrev Frame := Option Mat × Option Expl

/-- `entry a i j` is `a[i][j]`; out-of-range reads default to `0` (the
source only reads in range on the inputs considered). -/
def entry (a : Mat) (i j : Nat) : Rat := (a.getD i []).getD j 0

/-- `len(a[0])`, the width `n` of the matrix (line 96). -/
def width (a : Mat) : Nat := (a.headD []).length

/-- `a[r], a[i] = a[i], a[r]` (line 105): the right-hand tuple is evaluated
first, so row `i` becomes the old row `r` and row `r` the old row `i`. -/
def swapRows (a : Mat) (i r : Nat) : Mat :=
  (a.set i (a.getD r [])).set r (a.getD i [])

/-- `[coeff / divisor for coeff in row]` (line 114). -/
def divRow (r : Row) (d : Rat) : Row := r.map (fun c => c / d)

/-- `[coeff_k - factor * coeff_i for (coeff_k, coeff_i) in zip(a[k], a[i])]`
(lines 124-126); `zip` truncates to the shorter row. -/
def subRow (factor : Rat) (rk ri : Row) : Row :=
  List.zipWith (fun ck ci => ck - factor * ci) rk ri

/-- The pivot search of lines 103-104: the first `r` in
`range(i+1, m)` with `a[r][j] != 0`, if any. -/
def findSwap (a : Mat) (i j : Nat) : Option Nat :=
  (List.range' (i+1) (a.length - (i+1))).find? (fun r => decide (entry a r j ≠ 0))

/-- The elimination loop of lines 121-128: for each `k` in the given list
(`range(i+1, m)` at the call site), replace row `k` by
`row_k - factor * row_i` with `factor = a[k][j]` read from the current
matrix, recording `{k: exp_minus(factor, i)}` in order. -/
def elimLoop (latex : Bool) (i j : Nat) : Mat → List Nat → Mat × Expl
  | a, [] => (a, [])
  | a, k :: ks =>
    let factor := entry a k j
    let p := elimLoop latex i j (a.set k (subRow factor (a.getD k []) (a.getD i []))) ks
    (p.1, (k, Exp.minus factor i latex) :: p.2)

/-- Normalization and elimination, lines 112-130.  The result is `none`
exactly when the list comprehension `[coeff / divisor for coeff in a[i]]`
raises `ZeroDivisionError`, i.e. when `divisor = a[i][j]` is zero (rows are
nonempty on every input considered, so the first division is attempted);
in that case the matrix is left unmutated.  Otherwise it returns the final
matrix together with the two frames yielded at lines 115 and 130. -/
def normElim (latex : Bool) (a1 : Mat) (i j m : Nat) : Option (Mat × List Frame) :=
  let divisor := entry a1 i j
  if divisor = 0 then none
  else
    let a2 := a1.set i (divRow (a1.getD i []) divisor)
    let p := elimLoop latex i j a2 (List.range' (i+1) (m - (i+1)))
    some (p.1, [(some a2, some [(i, Exp.divide divisor latex)]), (some p.1, some p.2)])

/-- The generator `gauss(a, i, j, produce_latex)` of lines 81-133, embedded
as a fuel-indexed pure function returning the yielded frames and the final
matrix.

* `i == j == 0` yields the initial frame (lines 92-93);
* `i == m or j == n` yields the sentinel and returns (lines 98-100);
* a zero pivot triggers the swap search (lines 102-110): a found row is
  swapped in and its frame yielded, otherwise the generator of
  `gauss(a, i, j+1)` is exhausted and, the `for` loop having no `return`
  after its `else` clause, control falls through;
* normalization/elimination (lines 112-130) follow, a `ZeroDivisionError`
  being converted into the frame `(a, dict())` plus `return`;
* finally the recursion `gauss(a, i+1, j+1)` is forwarded (lines 132-133).
-/
def gaussGo (latex : Bool) : Nat → Mat → Nat → Nat → List Frame × Mat
  | 0, a, _, _ => ([], a)
  | fuel+1, a, i, j =>
    let first : List Frame := if i = 0 ∧ j = 0 then [(some a, none)] else []
    if i = a.length ∨ j = width a then (first ++ [(none, some [])], a)
    else
      let zp : List Frame × Mat :=
        if entry a i j = 0 then
          match findSwap a i j with
          | some r => ([(some (swapRows a i r), some [(i, Exp.swap i r latex)])], swapRows a i r)
          | none => gaussGo latex fuel a i (j+1)
        else ([], a)
      match normElim latex zp.2 i j a.length with
      | none => (first ++ zp.1 ++ [(some zp.2, some [])], zp.2)
      | some (a3, fr) =>
        let q := gaussGo latex fuel a3 (i+1) (j+1)
        (first ++ zp.1 ++ fr ++ q.1, q.2)

/-- The full trace of `gauss(a)` started at `i = j = 0`, with enough fuel
for a rectangular matrix of width `width a`. -/
def gauss (latex : Bool) (a : Mat) : List Frame := (gaussGo latex (width a + 1) a 0 0).1

/-- The final state of the matrix after the run of `gauss(a)`. -/
def gaussFinal (latex : Bool) (a : Mat) : Mat := (gaussGo latex (width a + 1) a 0 0).2

/-- The sentinel frame `(None, dict())` of line 99. -/
def sentinel : Frame := (none, some [])

/-- The formatting-independent shape of a frame: the matrix snapshot
together with the row indices (the keys) of its explanation mapping,
forgetting the explanation texts. -/
def frameShape (fr : Frame) : Option Mat × Option (List Nat) :=
  (fr.1, fr.2.map (List.map Prod.fst))

/-- A rectangular matrix: every row has length `n`. -/
abbrev Rect (n : Nat) (a : Mat) : Prop := ∀ row ∈ a, row.length = n

/-- The zero block to the left of and below position `(i, j)`: every row
from `i` on is zero in every column before `j`. -/
def ZeroBlock (a : Mat) (i j : Nat) : Prop :=
  ∀ r c, i ≤ r → c < j → entry a r c = 0

/-- The call graph of the run: `Reaches latex f a i j a' i' j'` holds when
the invocation `gauss(a, i, j)` (with fuel `f`) reaches, through zero or
more recursive calls, an invocation entered on state `(a', i', j')`.  The
two recursive-call sites of the source are mirrored exactly: the
degenerate-column call `gauss(a, i, j+1)` (line 109) and the descent
`gauss(a, i+1, j+1)` (line 132), the latter on the matrix produced by the
zero-pivot phase (`a` unchanged, or swapped, or the final matrix of the
degenerate-column recursion the code falls through from) after a
successful normalization and elimination. -/
inductive Reaches (latex : Bool) : Nat → Mat → Nat → Nat → Mat → Nat → Nat → Prop where
  | here (f : Nat) (a : Mat) (i j : Nat) : Reaches latex f a i j a i j
  | skip (f : Nat) (a : Mat) (i j : Nat) (a' : Mat) (i' j' : Nat)
      (hb : ¬(i = a.length ∨ j = width a))
      (hp : entry a i j = 0) (hs : findSwap a i j = none)
      (h : Reaches latex f a i (j+1) a' i' j') :
      Reaches latex (f+1) a i j a' i' j'
  | step (f : Nat) (a a1 : Mat) (i j : Nat) (a3 : Mat) (fr : List Frame)
      (a' : Mat) (i' j' : Nat)
      (hb : ¬(i = a.length ∨ j = width a))
      (h1 : (entry a i j ≠ 0 ∧ a1 = a) ∨
            (entry a i j = 0 ∧ ∃ r, findSwap a i j = some r ∧ a1 = swapRows a i r) ∨
            (entry a i j = 0 ∧ findSwap a i j = none ∧ a1 = (gaussGo latex f a i (j+1)).2))
      (hne : normElim latex a1 i j a.length = some (a3, fr))
      (h : Reaches latex f a3 (i+1) (j+1) a' i' j') :
      Reaches latex (f+1) a i j a' i' j'

/-! ### Basic list access lemmas -/

theorem getD_set_self {α : Type} (l : List α) (i : Nat) (v d : α) (h : i < l.length) :
    (l.set i v).getD i d = v := by
  rw [List.getD_eq_getElem?_getD, List.getElem?_set_self h]
  rfl

theorem getD_set_ne {α : Type} {i k : Nat} (l : List α) (v d : α) (h : i ≠ k) :
    (l.set i v).getD k d = l.getD k d := by
  rw [List.getD_eq_getElem?_getD, List.getElem?_set_ne h, ← List.getD_eq_getElem?_getD]

theorem getD_of_length_le {α : Type} (l : List α) (i : Nat) (d : α) (h : l.length ≤ i) :
    l.getD i d = d := by
  rw [List.getD_eq_getElem?_getD, List.getElem?_eq_none h]
  rfl

theorem set_getD_self {α : Type} (l : List α) (i : Nat) (d : α) (h : i < l.length) :
    l.set i (l.getD i d) = l := by
  apply List.ext_getElem?
  intro n
  rw [List.getElem?_set]
  by_cases he : i = n
  · subst he
    rw [if_pos rfl, if_pos h, List.getD_eq_getElem l d h, List.getElem?_eq_getElem h]
  · rw [if_neg he]

theorem getD_mem {α : Type} (l : List α) (i : Nat) (d : α) (h : i < l.length) :
    l.getD i d ∈ l := by
  rw [List.getD_eq_getElem l d h]
  exact List.getElem_mem h

/-! ### Lemmas about the row operations -/

theorem length_divRow (r : Row) (d : Rat) : (divRow r d).length = r.length := by
  simp [divRow]

theorem divRow_getD (r : Row) (d : Rat) (c : Nat) (h : c < r.length) :
    (divRow r d).getD c 0 = r.getD c 0 / d := by
  rw [divRow, List.getD_eq_getElem _ _ (by simpa using h), List.getElem_map,
    List.getD_eq_getElem _ _ h]

theorem divRow_getD_zero (r : Row) (d : Rat) (c : Nat) (h : r.getD c 0 = 0) :
    (divRow r d).getD c 0 = 0 := by
  by_cases hc : c < r.length
  · rw [divRow_getD r d c hc, h, zero_div]
  · exact getD_of_length_le _ _ _ (by rw [length_divRow]; omega)

theorem divRow_one (r : Row) : divRow r 1 = r := by
  simp [divRow]

theorem length_subRow (factor : Rat) (rk ri : Row) :
    (subRow factor rk ri).length = min rk.length ri.length := by
  simp [subRow]

theorem subRow_getD (factor : Rat) (rk ri : Row) (c : Nat)
    (h1 : c < rk.length) (h2 : c < ri.length) :
    (subRow factor rk ri).getD c 0 = rk.getD c 0 - factor * ri.getD c 0 := by
  have hc : c < (subRow factor rk ri).length := by rw [length_subRow]; omega
  rw [List.getD_eq_getElem _ _ hc, List.getD_eq_getElem _ _ h1, List.getD_eq_getElem _ _ h2]
  exact List.getElem_zipWith

theorem subRow_getD_zero (factor : Rat) (rk ri : Row) (c : Nat)
    (hk : rk.getD c 0 = 0) (hi : ri.getD c 0 = 0) :
    (subRow factor rk ri).getD c 0 = 0 := by
  by_cases h : c < rk.length ∧ c < ri.length
  · rw [subRow_getD factor rk ri c h.1 h.2, hk, hi, mul_zero, sub_zero]
  · refine getD_of_length_le _ _ _ ?_
    rw [length_subRow]
    omega

theorem subRow_getD_of_sub_zero (factor : Rat) (rk ri : Row) (c : Nat)
    (hi : ri.getD c 0 = 0) :
    (subRow factor rk ri).getD c 0 = rk.getD c 0 ∨ (subRow factor rk ri).getD c 0 = 0 := by
  by_cases h : c < rk.length ∧ c < ri.length
  · left
    rw [subRow_getD factor rk ri c h.1 h.2, hi, mul_zero, sub_zero]
  · right
    refine getD_of_length_le _ _ _ ?_
    rw [length_subRow]
    omega

theorem subRow_zero_factor (rk ri : Row) (h : rk.length ≤ ri.length) :
    subRow 0 rk ri = rk := by
  induction rk generalizing ri with
  | nil => rfl
  | cons x xs ih =>
    cases ri with
    | nil => simp at h
    | cons y ys =>
      show (x - 0 * y) :: subRow 0 xs ys = x :: xs
      rw [zero_mul, sub_zero, ih ys (by simpa using h)]

theorem length_swapRows (a : Mat) (i r : Nat) : (swapRows a i r).length = a.length := by
  simp [swapRows]

theorem swapRows_getD_fst (a : Mat) (i r : Nat) (hi : i < a.length) (hr : r < a.length) :
    (swapRows a i r).getD i [] = a.getD r [] := by
  unfold swapRows
  by_cases h : i = r
  · subst h
    exact getD_set_self _ _ _ _ (by simpa using hi)
  · rw [getD_set_ne _ _ _ (fun hri => h hri.symm), getD_set_self _ _ _ _ hi]

theorem swapRows_getD_snd (a : Mat) (i r : Nat) (hr : r < a.length) :
    (swapRows a i r).getD r [] = a.getD i [] := by
  unfold swapRows
  exact getD_set_self _ _ _ _ (by simpa using hr)

theorem swapRows_getD_other (a : Mat) (i r t : Nat) (hti : t ≠ i) (htr : t ≠ r) :
    (swapRows a i r).getD t [] = a.getD t [] := by
  unfold swapRows
  rw [getD_set_ne _ _ _ (fun h => htr h.symm), getD_set_ne _ _ _ (fun h => hti h.symm)]

theorem rect_swapRows {n : Nat} {a : Mat} (h : Rect n a) {i r : Nat}
    (hi : i < a.length) (hr : r < a.length) :
    Rect n (swapRows a i r) := by
  intro row hrow
  rcases List.mem_or_eq_of_mem_set hrow with h1 | h1
  · rcases List.mem_or_eq_of_mem_set h1 with h2 | h2
    · exact h row h2
    · subst h2
      exact h _ (getD_mem _ _ _ hr)
  · subst h1
    exact h _ (getD_mem _ _ _ hi)

/-! ### Entry-level corollaries -/

theorem entry_set_ne (s t : Nat) (a : Mat) (v : Row) (h : s ≠ t) (c : Nat) :
    entry (a.set s v) t c = entry a t c := by
  unfold entry
  rw [getD_set_ne _ _ _ h]

theorem entry_set_self {i : Nat} (a : Mat) (v : Row) (h : i < a.length) (c : Nat) :
    entry (a.set i v) i c = v.getD c 0 := by
  unfold entry
  rw [getD_set_self _ _ _ _ h]

theorem entry_of_length_le (a : Mat) (i c : Nat) (h : a.length ≤ i) :
    entry a i c = 0 := by
  unfold entry
  rw [getD_of_length_le _ _ _ h]
  rfl

theorem rect_getD_length {n : Nat} {a : Mat} (h : Rect n a) {i : Nat} (hi : i < a.length) :
    (a.getD i []).length = n :=
  h _ (getD_mem _ _ _ hi)

theorem rect_width {n : Nat} {a : Mat} (h : Rect n a) (hm : 0 < a.length) :
    width a = n := by
  unfold width
  rw [List.headD_eq_head?, List.head?_eq_getElem?, List.getElem?_eq_getElem hm]
  exact h _ (List.getElem_mem hm)

/-! ### Lemmas about the elimination loop -/

theorem elimLoop_nil (latex : Bool) (i j : Nat) (a : Mat) :
    elimLoop latex i j a [] = (a, []) := rfl

theorem elimLoop_cons (latex : Bool) (i j : Nat) (a : Mat) (k : Nat) (ks : List Nat) :
    elimLoop latex i j a (k :: ks) =
      ((elimLoop latex i j (a.set k (subRow (entry a k j) (a.getD k []) (a.getD i []))) ks).1,
       (k, Exp.minus (entry a k j) i latex) ::
         (elimLoop latex i j (a.set k (subRow (entry a k j) (a.getD k []) (a.getD i []))) ks).2) := rfl

theorem elimLoop_length (latex : Bool) (i j : Nat) (a : Mat) (ks : List Nat) :
    (elimLoop latex i j a ks).1.length = a.length := by
  induction ks generalizing a with
  | nil => rfl
  | cons k ks ih =>
    rw [elimLoop_cons]
    dsimp only
    rw [ih, List.length_set]

theorem elimLoop_getD_not_mem (latex : Bool) (i j : Nat) (a : Mat) (ks : List Nat)
    (t : Nat) (ht : t ∉ ks) :
    (elimLoop latex i j a ks).1.getD t [] = a.getD t [] := by
  induction ks generalizing a with
  | nil => rfl
  | cons k ks ih =>
    rw [elimLoop_cons]
    dsimp only
    have hkt : k ≠ t := fun hkt => ht (by rw [← hkt]; exact List.mem_cons_self _ _)
    rw [ih _ (fun hmem => ht (List.mem_cons_of_mem _ hmem)), getD_set_ne _ _ _ hkt]

theorem elimLoop_keys (latex : Bool) (i j : Nat) (a : Mat) (ks : List Nat) :
    (elimLoop latex i j a ks).2.map Prod.fst = ks := by
  induction ks generalizing a with
  | nil => rfl
  | cons k ks ih =>
    rw [elimLoop_cons]
    dsimp only [List.map_cons]
    rw [ih]

theorem elimLoop_fst_latex (latex : Bool) (i j : Nat) (a : Mat) (ks : List Nat) :
    (elimLoop latex i j a ks).1 = (elimLoop false i j a ks).1 := by
  induction ks generalizing a with
  | nil => rfl
  | cons k ks ih =>
    rw [elimLoop_cons, elimLoop_cons]
    dsimp only
    rw [ih]

theorem rect_elimLoop {n : Nat} (latex : Bool) (i j : Nat) (a : Mat) (ks : List Nat)
    (hrect : Rect n a) (hi : i < a.length) :
    Rect n (elimLoop latex i j a ks).1 := by
  induction ks generalizing a with
  | nil => exact hrect
  | cons k ks ih =>
    rw [elimLoop_cons]
    dsimp only
    by_cases hk : k < a.length
    · refine ih _ ?_ (by simpa using hi)
      intro row hrow
      rcases List.mem_or_eq_of_mem_set hrow with h1 | h1
      · exact hrect row h1
      · subst h1
        rw [length_subRow, rect_getD_length hrect hk, rect_getD_length hrect hi]
        exact min_self n
    · rw [List.set_eq_of_length_le (by omega)]
      exact ih _ hrect hi

theorem elimLoop_col_zero {n : Nat} (latex : Bool) (i j : Nat) (a : Mat) (ks : List Nat)
    (hrect : Rect n a) (hi : i < a.length) (hj : j < n) (hpiv : entry a i j = 1)
    (hnd : ks.Nodup) (hik : i ∉ ks) (hks : ∀ k ∈ ks, k < a.length) :
    ∀ k ∈ ks, entry (elimLoop latex i j a ks).1 k j = 0 := by
  induction ks generalizing a with
  | nil => intro k hk; cases hk
  | cons k ks ih =>
    have hklen : k < a.length := hks k (List.mem_cons_self _ _)
    have hik' : i ≠ k := fun h => hik (h ▸ List.mem_cons_self _ _)
    set v := subRow (entry a k j) (a.getD k []) (a.getD i []) with hv
    have hrect' : Rect n (a.set k v) := by
      intro row hrow
      rcases List.mem_or_eq_of_mem_set hrow with h1 | h1
      · exact hrect row h1
      · subst h1
        rw [hv, length_subRow, rect_getD_length hrect hklen, rect_getD_length hrect hi]
        exact min_self n
    have hset_k : entry (a.set k v) k j = 0 := by
      rw [entry_set_self _ _ hklen, hv,
        subRow_getD (entry a k j) _ _ j (by rw [rect_getD_length hrect hklen]; omega)
          (by rw [rect_getD_length hrect hi]; omega)]
      have : (a.getD i []).getD j 0 = 1 := hpiv
      rw [this, mul_one]
      show (a.getD k []).getD j 0 - entry a k j = 0
      show (a.getD k []).getD j 0 - (a.getD k []).getD j 0 = 0
      exact sub_self _
    intro k' hk'
    rw [elimLoop_cons]
    dsimp only
    rcases List.mem_cons.mp hk' with h1 | h1
    · subst h1
      have hknotin : k' ∉ ks := (List.nodup_cons.mp hnd).1
      unfold entry
      rw [elimLoop_getD_not_mem latex i j _ ks k' hknotin]
      exact hset_k
    · refine ih _ ?_ ?_ ?_ ?_ ?_ ?_ k' h1
      · exact hrect'
      · simpa using hi
      · rw [entry_set_ne _ _ _ _ (Ne.symm hik')]
        exact hpiv
      · exact (List.nodup_cons.mp hnd).2
      · exact fun hmem => hik (List.mem_cons_of_mem _ hmem)
      · intro k'' hk''
        rw [List.length_set]
        exact hks k'' (List.mem_cons_of_mem _ hk'')

theorem elimLoop_col_pres (latex : Bool) (i j c : Nat) (a : Mat) (ks : List Nat)
    (hic : entry a i c = 0) (hik : i ∉ ks) :
    ∀ t, entry (elimLoop latex i j a ks).1 t c = entry a t c ∨
      entry (elimLoop latex i j a ks).1 t c = 0 := by
  induction ks generalizing a with
  | nil => exact fun t => Or.inl rfl
  | cons k ks ih =>
    have hik' : i ≠ k := fun h => hik (h ▸ List.mem_cons_self _ _)
    set v := subRow (entry a k j) (a.getD k []) (a.getD i []) with hv
    have hic' : entry (a.set k v) i c = 0 := by
      rw [entry_set_ne _ _ _ _ (fun h => hik' h.symm)]
      exact hic
    intro t
    rw [elimLoop_cons]
    dsimp only
    rcases ih _ hic' (fun hmem => hik (List.mem_cons_of_mem _ hmem)) t with h1 | h1
    · rw [h1]
      by_cases htk : t = k
      · subst htk
        by_cases hlen : t < a.length
        · rw [entry_set_self _ _ hlen, hv]
          rcases subRow_getD_of_sub_zero (entry a t j) (a.getD t []) (a.getD i []) c hic
            with h2 | h2
          · left; exact h2
          · right; exact h2
        · rw [List.set_eq_of_length_le (by omega)]
          left; rfl
      · left
        exact entry_set_ne _ _ _ _ (fun h => htk h.symm) c
    · right; exact h1

theorem elimLoop_id {n : Nat} (latex : Bool) (i j : Nat) (a : Mat) (ks : List Nat)
    (hz : ∀ k ∈ ks, entry a k j = 0) (hrect : Rect n a) (hi : i < a.length)
    (hks : ∀ k ∈ ks, k < a.length) :
    (elimLoop latex i j a ks).1 = a := by
  induction ks generalizing a with
  | nil => rfl
  | cons k ks ih =>
    have hklen : k < a.length := hks k (List.mem_cons_self _ _)
    rw [elimLoop_cons]
    dsimp only
    rw [hz k (List.mem_cons_self _ _), subRow_zero_factor _ _
      (by rw [rect_getD_length hrect hklen, rect_getD_length hrect hi]),
      set_getD_self _ _ _ hklen]
    exact ih a (fun k' hk' => hz k' (List.mem_cons_of_mem _ hk')) hrect hi
      (fun k' hk' => hks k' (List.mem_cons_of_mem _ hk'))

/-! ### Lemmas about the pivot search -/

theorem find?_range'_eq_some (p : Nat → Bool) :
    ∀ (n s r : Nat), (List.range' s n).find? p = some r →
      p r = true ∧ s ≤ r ∧ r < s + n ∧ ∀ t, s ≤ t → t < r → p t = false := by
  intro n
  induction n with
  | zero => intro s r h; cases h
  | succ n ih =>
    intro s r h
    rw [List.range'_succ, List.find?_cons] at h
    cases hps : p s with
    | true =>
      rw [hps] at h
      cases h
      exact ⟨hps, Nat.le_refl _, by omega, fun t h1 h2 => absurd (Nat.lt_of_le_of_lt h1 h2)
        (Nat.lt_irrefl _)⟩
    | false =>
      rw [hps] at h
      obtain ⟨h1, h2, h3, h4⟩ := ih (s+1) r h
      refine ⟨h1, by omega, by omega, fun t ht1 ht2 => ?_⟩
      rcases Nat.eq_or_lt_of_le ht1 with he | hlt
      · rw [← he]; exact hps
      · exact h4 t hlt ht2

theorem findSwap_some (a : Mat) (i j r : Nat) (h : findSwap a i j = some r) :
    entry a r j ≠ 0 ∧ i < r ∧ r < a.length ∧ ∀ t, i < t → t < r → entry a t j = 0 := by
  obtain ⟨h1, h2, h3, h4⟩ := find?_range'_eq_some _ _ _ _ h
  refine ⟨of_decide_eq_true h1, by omega, by omega, fun t ht1 ht2 => ?_⟩
  have := h4 t (by omega) ht2
  have := of_decide_eq_false this
  exact not_not.mp this

theorem findSwap_none (a : Mat) (i j : Nat) (h : findSwap a i j = none)
    (t : Nat) (ht1 : i < t) (ht2 : t < a.length) : entry a t j = 0 := by
  rw [findSwap, List.find?_eq_none] at h
  have hmem : t ∈ List.range' (i+1) (a.length - (i+1)) := by
    rw [List.mem_range'_1]
    omega
  have := h t hmem
  exact not_not.mp (of_decide_eq_false (Bool.of_not_eq_true this))

theorem findSwap_none_all (a : Mat) (i j : Nat) (h : findSwap a i j = none)
    (hp : entry a i j = 0) (t : Nat) (ht : i ≤ t) : entry a t j = 0 := by
  rcases Nat.eq_or_lt_of_le ht with he | hlt
  · rw [← he]; exact hp
  · by_cases hlen : t < a.length
    · exact findSwap_none a i j h t hlt hlen
    · exact entry_of_length_le a t j (by omega)

/-! ### Shape lemmas for normalization and elimination -/

theorem normElim_none (latex : Bool) (a1 : Mat) (i j m : Nat) (h : entry a1 i j = 0) :
    normElim latex a1 i j m = none := by
  simp [normElim, h]

theorem normElim_some (latex : Bool) (a1 : Mat) (i j m : Nat) (h : entry a1 i j ≠ 0) :
    normElim latex a1 i j m =
      some ((elimLoop latex i j (a1.set i (divRow (a1.getD i []) (entry a1 i j)))
              (List.range' (i+1) (m - (i+1)))).1,
            [(some (a1.set i (divRow (a1.getD i []) (entry a1 i j))),
              some [(i, Exp.divide (entry a1 i j) latex)]),
             (some (elimLoop latex i j (a1.set i (divRow (a1.getD i []) (entry a1 i j)))
                      (List.range' (i+1) (m - (i+1)))).1,
              some (elimLoop latex i j (a1.set i (divRow (a1.getD i []) (entry a1 i j)))
                      (List.range' (i+1) (m - (i+1)))).2)]) := by
  simp [normElim, h]

theorem normElim_none_iff (latex : Bool) (a1 : Mat) (i j m : Nat) :
    normElim latex a1 i j m = none ↔ entry a1 i j = 0 := by
  constructor
  · intro h
    by_contra hne
    rw [normElim_some latex a1 i j m hne] at h
    cases h
  · exact normElim_none latex a1 i j m

theorem normElim_some_inv (latex : Bool) (a1 : Mat) (i j m : Nat) (a3 : Mat)
    (fr : List Frame) (h : normElim latex a1 i j m = some (a3, fr)) :
    entry a1 i j ≠ 0 ∧
    a3 = (elimLoop latex i j (a1.set i (divRow (a1.getD i []) (entry a1 i j)))
            (List.range' (i+1) (m - (i+1)))).1 ∧
    fr = [(some (a1.set i (divRow (a1.getD i []) (entry a1 i j))),
           some [(i, Exp.divide (entry a1 i j) latex)]),
          (some a3,
           some (elimLoop latex i j (a1.set i (divRow (a1.getD i []) (entry a1 i j)))
                   (List.range' (i+1) (m - (i+1)))).2)] := by
  by_cases hp : entry a1 i j = 0
  · rw [normElim_none latex a1 i j m hp] at h
    cases h
  · rw [normElim_some latex a1 i j m hp] at h
    injection h with h'
    injection h' with h1 h2
    subst h1
    subst h2
    exact ⟨hp, rfl, rfl⟩

/-! ### Shape lemmas for the generator -/

theorem gaussGo_zero (latex : Bool) (a : Mat) (i j : Nat) :
    gaussGo latex 0 a i j = ([], a) := rfl

theorem gaussGo_boundary (latex : Bool) (f : Nat) (a : Mat) (i j : Nat)
    (hb : i = a.length ∨ j = width a) :
    gaussGo latex (f+1) a i j =
      ((if i = 0 ∧ j = 0 then [((some a : Option Mat), (none : Option Expl))] else []) ++
        [(none, some [])], a) := by
  simp only [gaussGo]
  rw [if_pos hb]

theorem gaussGo_nopivot (latex : Bool) (f : Nat) (a : Mat) (i j : Nat) (a3 : Mat)
    (fr : List Frame) (hb : ¬(i = a.length ∨ j = width a)) (hp : entry a i j ≠ 0)
    (hne : normElim latex a i j a.length = some (a3, fr)) :
    gaussGo latex (f+1) a i j =
      ((if i = 0 ∧ j = 0 then [((some a : Option Mat), (none : Option Expl))] else []) ++
        fr ++ (gaussGo latex f a3 (i+1) (j+1)).1, (gaussGo latex f a3 (i+1) (j+1)).2) := by
  simp only [gaussGo]
  rw [if_neg hb, if_neg hp, hne]
  simp

theorem gaussGo_swap_some (latex : Bool) (f : Nat) (a : Mat) (i j r : Nat) (a3 : Mat)
    (fr : List Frame) (hb : ¬(i = a.length ∨ j = width a)) (hp : entry a i j = 0)
    (hs : findSwap a i j = some r)
    (hne : normElim latex (swapRows a i r) i j a.length = some (a3, fr)) :
    gaussGo latex (f+1) a i j =
      ((if i = 0 ∧ j = 0 then [((some a : Option Mat), (none : Option Expl))] else []) ++
        ((some (swapRows a i r), some [(i, Exp.swap i r latex)]) :: fr) ++
        (gaussGo latex f a3 (i+1) (j+1)).1, (gaussGo latex f a3 (i+1) (j+1)).2) := by
  simp only [gaussGo]
  rw [if_neg hb, if_pos hp, hs]
  dsimp only
  rw [hne]
  simp

theorem gaussGo_swap_none (latex : Bool) (f : Nat) (a : Mat) (i j r : Nat)
    (hb : ¬(i = a.length ∨ j = width a)) (hp : entry a i j = 0)
    (hs : findSwap a i j = some r)
    (hne : normElim latex (swapRows a i r) i j a.length = none) :
    gaussGo latex (f+1) a i j =
      ((if i = 0 ∧ j = 0 then [((some a : Option Mat), (none : Option Expl))] else []) ++
        [(some (swapRows a i r), some [(i, Exp.swap i r latex)]),
         (some (swapRows a i r), some [])], swapRows a i r) := by
  simp only [gaussGo]
  rw [if_neg hb, if_pos hp, hs]
  dsimp only
  rw [hne]
  simp

theorem gaussGo_noswap_none (latex : Bool) (f : Nat) (a : Mat) (i j : Nat)
    (hb : ¬(i = a.length ∨ j = width a)) (hp : entry a i j = 0)
    (hs : findSwap a i j = none)
    (hne : normElim latex (gaussGo latex f a i (j+1)).2 i j a.length = none) :
    gaussGo latex (f+1) a i j =
      ((if i = 0 ∧ j = 0 then [((some a : Option Mat), (none : Option Expl))] else []) ++
        (gaussGo latex f a i (j+1)).1 ++ [(some (gaussGo latex f a i (j+1)).2, some [])],
       (gaussGo latex f a i (j+1)).2) := by
  simp only [gaussGo]
  rw [if_neg hb, if_pos hp, hs]
  dsimp only
  rw [hne]

theorem gaussGo_noswap_some (latex : Bool) (f : Nat) (a : Mat) (i j : Nat) (a3 : Mat)
    (fr : List Frame) (hb : ¬(i = a.length ∨ j = width a)) (hp : entry a i j = 0)
    (hs : findSwap a i j = none)
    (hne : normElim latex (gaussGo latex f a i (j+1)).2 i j a.length = some (a3, fr)) :
    gaussGo latex (f+1) a i j =
      ((if i = 0 ∧ j = 0 then [((some a : Option Mat), (none : Option Expl))] else []) ++
        (gaussGo latex f a i (j+1)).1 ++ fr ++ (gaussGo latex f a3 (i+1) (j+1)).1,
       (gaussGo latex f a3 (i+1) (j+1)).2) := by
  simp only [gaussGo]
  rw [if_neg hb, if_pos hp, hs]
  dsimp only
  rw [hne]

/-! ### Invariants of normalization and elimination -/

theorem entry_ne_zero_lt (a : Mat) (i j : Nat) (h : entry a i j ≠ 0) : i < a.length := by
  by_contra hlen
  exact h (entry_of_length_le a i j (by omega))

theorem normElim_length (latex : Bool) (a1 : Mat) (i j m : Nat) (a3 : Mat)
    (fr : List Frame) (h : normElim latex a1 i j m = some (a3, fr)) :
    a3.length = a1.length := by
  obtain ⟨-, h1, -⟩ := normElim_some_inv latex a1 i j m a3 fr h
  rw [h1, elimLoop_length, List.length_set]

theorem rect_normElim {n : Nat} (latex : Bool) (a1 : Mat) (i j m : Nat) (a3 : Mat)
    (fr : List Frame) (hrect : Rect n a1) (h : normElim latex a1 i j m = some (a3, fr)) :
    Rect n a3 := by
  obtain ⟨hp, h1, -⟩ := normElim_some_inv latex a1 i j m a3 fr h
  have hi : i < a1.length := entry_ne_zero_lt a1 i j hp
  have hrect2 : Rect n (a1.set i (divRow (a1.getD i []) (entry a1 i j))) := by
    intro row hrow
    rcases List.mem_or_eq_of_mem_set hrow with h2 | h2
    · exact hrect row h2
    · subst h2
      rw [length_divRow]
      exact rect_getD_length hrect hi
  rw [h1]
  exact rect_elimLoop _ _ _ _ _ hrect2 (by simpa using hi)

theorem normElim_getD_lt (latex : Bool) (a1 : Mat) (i j m : Nat) (a3 : Mat)
    (fr : List Frame) (h : normElim latex a1 i j m = some (a3, fr)) (t : Nat) (ht : t < i) :
    a3.getD t [] = a1.getD t [] := by
  obtain ⟨-, h1, -⟩ := normElim_some_inv latex a1 i j m a3 fr h
  rw [h1, elimLoop_getD_not_mem _ _ _ _ _ t (by
      intro hmem
      rw [List.mem_range'_1] at hmem
      omega),
    getD_set_ne _ _ _ (by omega)]

theorem normElim_colzero (latex : Bool) (a1 : Mat) (i j m : Nat) (a3 : Mat)
    (fr : List Frame) (h : normElim latex a1 i j m = some (a3, fr)) (c i0 : Nat)
    (hi0 : i0 ≤ i) (hz : ∀ t, i0 ≤ t → entry a1 t c = 0) :
    ∀ t, i0 ≤ t → entry a3 t c = 0 := by
  obtain ⟨hp, h1, -⟩ := normElim_some_inv latex a1 i j m a3 fr h
  have hi : i < a1.length := entry_ne_zero_lt a1 i j hp
  have hz2 : ∀ t, i0 ≤ t →
      entry (a1.set i (divRow (a1.getD i []) (entry a1 i j))) t c = 0 := by
    intro t ht
    by_cases hti : t = i
    · subst hti
      rw [entry_set_self _ _ hi]
      exact divRow_getD_zero _ _ _ (hz t ht)
    · rw [entry_set_ne _ _ _ _ (fun he => hti he.symm)]
      exact hz t ht
  intro t ht
  rw [h1]
  rcases elimLoop_col_pres latex i j c (a1.set i (divRow (a1.getD i []) (entry a1 i j)))
      (List.range' (i+1) (m - (i+1))) (hz2 i hi0)
      (by intro hmem; rw [List.mem_range'_1] at hmem; omega) t with h2 | h2
  · rw [h2]; exact hz2 t ht
  · exact h2

theorem swapRows_colzero (a : Mat) (i r c i0 : Nat) (hi0 : i0 ≤ i) (hir : i < r)
    (hr : r < a.length) (hz : ∀ t, i0 ≤ t → entry a t c = 0) :
    ∀ t, i0 ≤ t → entry (swapRows a i r) t c = 0 := by
  intro t ht
  unfold entry
  by_cases hti : t = i
  · subst hti
    rw [swapRows_getD_fst a t r (by omega) hr]
    exact hz r (by omega)
  · by_cases htr : t = r
    · subst htr
      rw [swapRows_getD_snd a i t hr]
      exact hz i hi0
    · rw [swapRows_getD_other a i r t hti htr]
      exact hz t ht

/-! ### Invariants of the generator -/

theorem gaussGo_length (latex : Bool) (f : Nat) (a : Mat) (i j : Nat) :
    (gaussGo latex f a i j).2.length = a.length := by
  induction f generalizing a i j with
  | zero => rfl
  | succ f ih =>
    by_cases hb : i = a.length ∨ j = width a
    · rw [gaussGo_boundary latex f a i j hb]
    · by_cases hp : entry a i j = 0
      · rcases hfs : findSwap a i j with _ | r
        · rcases hne : normElim latex (gaussGo latex f a i (j+1)).2 i j a.length
            with _ | ⟨a3, fr⟩
          · rw [gaussGo_noswap_none latex f a i j hb hp hfs hne]
            exact ih a i (j+1)
          · rw [gaussGo_noswap_some latex f a i j a3 fr hb hp hfs hne]
            dsimp only
            rw [ih a3 (i+1) (j+1), normElim_length _ _ _ _ _ _ _ hne, ih a i (j+1)]
        · rcases hne : normElim latex (swapRows a i r) i j a.length with _ | ⟨a3, fr⟩
          · rw [gaussGo_swap_none latex f a i j r hb hp hfs hne]
            exact length_swapRows a i r
          · rw [gaussGo_swap_some latex f a i j r a3 fr hb hp hfs hne]
            dsimp only
            rw [ih a3 (i+1) (j+1), normElim_length _ _ _ _ _ _ _ hne, length_swapRows]
      · rcases hne : normElim latex a i j a.length with _ | ⟨a3, fr⟩
        · rw [normElim_none_iff] at hne
          exact absurd hne hp
        · rw [gaussGo_nopivot latex f a i j a3 fr hb hp hne]
          dsimp only
          rw [ih a3 (i+1) (j+1), normElim_length _ _ _ _ _ _ _ hne]

theorem rect_gaussGo {n : Nat} (latex : Bool) (f : Nat) (a : Mat) (i j : Nat)
    (hrect : Rect n a) : Rect n (gaussGo latex f a i j).2 := by
  induction f generalizing a i j with
  | zero => exact hrect
  | succ f ih =>
    by_cases hb : i = a.length ∨ j = width a
    · rw [gaussGo_boundary latex f a i j hb]
      exact hrect
    · by_cases hp : entry a i j = 0
      · rcases hfs : findSwap a i j with _ | r
        · rcases hne : normElim latex (gaussGo latex f a i (j+1)).2 i j a.length
            with _ | ⟨a3, fr⟩
          · rw [gaussGo_noswap_none latex f a i j hb hp hfs hne]
            exact ih a i (j+1) hrect
          · rw [gaussGo_noswap_some latex f a i j a3 fr hb hp hfs hne]
            exact ih a3 (i+1) (j+1)
              (rect_normElim _ _ _ _ _ _ _ (ih a i (j+1) hrect) hne)
        · obtain ⟨-, hir, hrlen, -⟩ := findSwap_some a i j r hfs
          have hsw : Rect n (swapRows a i r) := rect_swapRows hrect (by omega) hrlen
          rcases hne : normElim latex (swapRows a i r) i j a.length with _ | ⟨a3, fr⟩
          · rw [gaussGo_swap_none latex f a i j r hb hp hfs hne]
            exact hsw
          · rw [gaussGo_swap_some latex f a i j r a3 fr hb hp hfs hne]
            exact ih a3 (i+1) (j+1) (rect_normElim _ _ _ _ _ _ _ hsw hne)
      · rcases hne : normElim latex a i j a.length with _ | ⟨a3, fr⟩
        · rw [normElim_none_iff] at hne
          exact absurd hne hp
        · rw [gaussGo_nopivot latex f a i j a3 fr hb hp hne]
          exact ih a3 (i+1) (j+1) (rect_normElim _ _ _ _ _ _ _ hrect hne)

theorem gaussGo_getD_lt (latex : Bool) (f : Nat) (a : Mat) (i j t : Nat) (ht : t < i) :
    (gaussGo latex f a i j).2.getD t [] = a.getD t [] := by
  induction f generalizing a i j with
  | zero => rfl
  | succ f ih =>
    by_cases hb : i = a.length ∨ j = width a
    · rw [gaussGo_boundary latex f a i j hb]
    · by_cases hp : entry a i j = 0
      · rcases hfs : findSwap a i j with _ | r
        · rcases hne : normElim latex (gaussGo latex f a i (j+1)).2 i j a.length
            with _ | ⟨a3, fr⟩
          · rw [gaussGo_noswap_none latex f a i j hb hp hfs hne]
            exact ih a i (j+1) ht
          · rw [gaussGo_noswap_some latex f a i j a3 fr hb hp hfs hne]
            dsimp only
            rw [ih a3 (i+1) (j+1) (by omega), normElim_getD_lt _ _ _ _ _ _ _ hne t ht,
              ih a i (j+1) ht]
        · obtain ⟨-, hir, hrlen, -⟩ := findSwap_some a i j r hfs
          have hsw : (swapRows a i r).getD t [] = a.getD t [] :=
            swapRows_getD_other a i r t (by omega) (by omega)
          rcases hne : normElim latex (swapRows a i r) i j a.length with _ | ⟨a3, fr⟩
          · rw [gaussGo_swap_none latex f a i j r hb hp hfs hne]
            exact hsw
          · rw [gaussGo_swap_some latex f a i j r a3 fr hb hp hfs hne]
            dsimp only
            rw [ih a3 (i+1) (j+1) (by omega), normElim_getD_lt _ _ _ _ _ _ _ hne t ht, hsw]
      · rcases hne : normElim latex a i j a.length with _ | ⟨a3, fr⟩
        · rw [normElim_none_iff] at hne
          exact absurd hne hp
        · rw [gaussGo_nopivot latex f a i j a3 fr hb hp hne]
          dsimp only
          rw [ih a3 (i+1) (j+1) (by omega), normElim_getD_lt _ _ _ _ _ _ _ hne t ht]

theorem gaussGo_colzero (latex : Bool) (f : Nat) (a : Mat) (i j c i0 : Nat)
    (hi0 : i0 ≤ i) (hz : ∀ t, i0 ≤ t → entry a t c = 0) :
    ∀ t, i0 ≤ t → entry (gaussGo latex f a i j).2 t c = 0 := by
  induction f generalizing a i j with
  | zero => exact hz
  | succ f ih =>
    by_cases hb : i = a.length ∨ j = width a
    · rw [gaussGo_boundary latex f a i j hb]
      exact hz
    · by_cases hp : entry a i j = 0
      · rcases hfs : findSwap a i j with _ | r
        · rcases hne : normElim latex (gaussGo latex f a i (j+1)).2 i j a.length
            with _ | ⟨a3, fr⟩
          · rw [gaussGo_noswap_none latex f a i j hb hp hfs hne]
            exact ih a i (j+1) hi0 hz
          · rw [gaussGo_noswap_some latex f a i j a3 fr hb hp hfs hne]
            exact ih a3 (i+1) (j+1) (by omega)
              (normElim_colzero _ _ _ _ _ _ _ hne c i0 hi0 (ih a i (j+1) hi0 hz))
        · obtain ⟨-, hir, hrlen, -⟩ := findSwap_some a i j r hfs
          have hsw := swapRows_colzero a i r c i0 hi0 hir hrlen hz
          rcases hne : normElim latex (swapRows a i r) i j a.length with _ | ⟨a3, fr⟩
          · rw [gaussGo_swap_none latex f a i j r hb hp hfs hne]
            exact hsw
          · rw [gaussGo_swap_some latex f a i j r a3 fr hb hp hfs hne]
            exact ih a3 (i+1) (j+1) (by omega)
              (normElim_colzero _ _ _ _ _ _ _ hne c i0 hi0 hsw)
      · rcases hne : normElim latex a i j a.length with _ | ⟨a3, fr⟩
        · rw [normElim_none_iff] at hne
          exact absurd hne hp
        · rw [gaussGo_nopivot latex f a i j a3 fr hb hp hne]
          exact ih a3 (i+1) (j+1) (by omega)
            (normElim_colzero _ _ _ _ _ _ _ hne c i0 hi0 hz)

/-! ### Fuel stability: enough fuel makes the result fuel-independent -/

theorem gaussGo_fuel_stable {n : Nat} (latex : Bool) (f1 : Nat) :
    ∀ (f2 : Nat) (a : Mat) (i j : Nat), Rect n a → 0 < a.length → i ≤ a.length → j ≤ n →
      n + 1 ≤ f1 + j → n + 1 ≤ f2 + j →
      gaussGo latex f1 a i j = gaussGo latex f2 a i j := by
  induction f1 with
  | zero =>
    intro f2 a i j _ _ _ hj hf1 _
    omega
  | succ f1 ih =>
    intro f2 a i j hrect hm hi hj hf1 hf2
    cases f2 with
    | zero => omega
    | succ f2 =>
      by_cases hb : i = a.length ∨ j = width a
      · rw [gaussGo_boundary latex f1 a i j hb, gaussGo_boundary latex f2 a i j hb]
      · have hwidth : width a = n := rect_width hrect hm
        have hjn : j < n := by
          rcases not_or.mp hb with ⟨-, h2⟩
          rw [hwidth] at h2
          omega
        have hilen : i < a.length := by
          rcases not_or.mp hb with ⟨h1, -⟩
          omega
        by_cases hp : entry a i j = 0
        · rcases hfs : findSwap a i j with _ | r
          · have hq : gaussGo latex f1 a i (j+1) = gaussGo latex f2 a i (j+1) :=
              ih f2 a i (j+1) hrect hm hi (by omega) (by omega) (by omega)
            rcases hne : normElim latex (gaussGo latex f1 a i (j+1)).2 i j a.length
              with _ | ⟨a3, fr⟩
            · have hne2 : normElim latex (gaussGo latex f2 a i (j+1)).2 i j a.length
                  = none := by rw [← hq]; exact hne
              rw [gaussGo_noswap_none latex f1 a i j hb hp hfs hne,
                gaussGo_noswap_none latex f2 a i j hb hp hfs hne2, hq]
            · have hne2 : normElim latex (gaussGo latex f2 a i (j+1)).2 i j a.length
                  = some (a3, fr) := by rw [← hq]; exact hne
              have hrect3 : Rect n a3 :=
                rect_normElim _ _ _ _ _ _ _ (rect_gaussGo latex f1 a i (j+1) hrect) hne
              have hlen3 : a3.length = a.length := by
                rw [normElim_length _ _ _ _ _ _ _ hne, gaussGo_length]
              have hrec : gaussGo latex f1 a3 (i+1) (j+1) = gaussGo latex f2 a3 (i+1) (j+1) :=
                ih f2 a3 (i+1) (j+1) hrect3 (by omega) (by omega) (by omega) (by omega)
                  (by omega)
              rw [gaussGo_noswap_some latex f1 a i j a3 fr hb hp hfs hne,
                gaussGo_noswap_some latex f2 a i j a3 fr hb hp hfs hne2, hq, hrec]
          · obtain ⟨-, hir, hrlen, -⟩ := findSwap_some a i j r hfs
            have hsw : Rect n (swapRows a i r) := rect_swapRows hrect (by omega) hrlen
            rcases hne : normElim latex (swapRows a i r) i j a.length with _ | ⟨a3, fr⟩
            · rw [gaussGo_swap_none latex f1 a i j r hb hp hfs hne,
                gaussGo_swap_none latex f2 a i j r hb hp hfs hne]
            · have hrect3 : Rect n a3 := rect_normElim _ _ _ _ _ _ _ hsw hne
              have hlen3 : a3.length = a.length := by
                rw [normElim_length _ _ _ _ _ _ _ hne, length_swapRows]
              have hrec : gaussGo latex f1 a3 (i+1) (j+1) = gaussGo latex f2 a3 (i+1) (j+1) :=
                ih f2 a3 (i+1) (j+1) hrect3 (by omega) (by omega) (by omega) (by omega)
                  (by omega)
              rw [gaussGo_swap_some latex f1 a i j r a3 fr hb hp hfs hne,
                gaussGo_swap_some latex f2 a i j r a3 fr hb hp hfs hne, hrec]
        · rcases hne : normElim latex a i j a.length with _ | ⟨a3, fr⟩
          · rw [normElim_none_iff] at hne
            exact absurd hne hp
          · have hrect3 : Rect n a3 := rect_normElim _ _ _ _ _ _ _ hrect hne
            have hlen3 : a3.length = a.length := normElim_length _ _ _ _ _ _ _ hne
            have hrec : gaussGo latex f1 a3 (i+1) (j+1) = gaussGo latex f2 a3 (i+1) (j+1) :=
              ih f2 a3 (i+1) (j+1) hrect3 (by omega) (by omega) (by omega) (by omega)
                (by omega)
            rw [gaussGo_nopivot latex f1 a i j a3 fr hb hp hne,
              gaussGo_nopivot latex f2 a i j a3 fr hb hp hne, hrec]

/-! ### The sentinel is emitted exactly once; the last frame has an empty
explanation -/

theorem gaussGo_sentinel {n : Nat} (latex : Bool) (f : Nat) :
    ∀ (a : Mat) (i j : Nat), Rect n a → 0 < a.length → i ≤ a.length → j ≤ n →
      n + 1 ≤ f + j →
      (gaussGo latex f a i j).1.countP (fun fr => fr.1.isNone) = 1 ∧
      ∃ mo, (gaussGo latex f a i j).1.getLast? = some (mo, some []) := by
  induction f with
  | zero =>
    intro a i j _ _ _ hj hf
    omega
  | succ f ih =>
    intro a i j hrect hm hi hj hf
    have hfirst0 : (if i = 0 ∧ j = 0 then [((some a : Option Mat), (none : Option Expl))]
        else []).countP (fun fr => fr.1.isNone) = 0 := by
      by_cases h00 : i = 0 ∧ j = 0 <;> simp [h00]
    by_cases hb : i = a.length ∨ j = width a
    · rw [gaussGo_boundary latex f a i j hb]
      refine ⟨?_, none, ?_⟩
      · dsimp only
        rw [List.countP_append, hfirst0]
        rfl
      · rw [List.getLast?_append]
        rfl
    · have hwidth : width a = n := rect_width hrect hm
      have hjn : j < n := by
        rcases not_or.mp hb with ⟨-, h2⟩
        rw [hwidth] at h2
        omega
      have hilen : i < a.length := by
        rcases not_or.mp hb with ⟨h1, -⟩
        omega
      by_cases hp : entry a i j = 0
      · rcases hfs : findSwap a i j with _ | r
        · have hz : ∀ t, i ≤ t → entry a t j = 0 := findSwap_none_all a i j hfs hp
          have hdiv : entry (gaussGo latex f a i (j+1)).2 i j = 0 :=
            gaussGo_colzero latex f a i (j+1) j i (Nat.le_refl i) hz i (Nat.le_refl i)
          have hne : normElim latex (gaussGo latex f a i (j+1)).2 i j a.length = none :=
            normElim_none _ _ _ _ _ hdiv
          rw [gaussGo_noswap_none latex f a i j hb hp hfs hne]
          obtain ⟨hcount, mo, hlast⟩ := ih a i (j+1) hrect hm hi (by omega) (by omega)
          refine ⟨?_, some (gaussGo latex f a i (j+1)).2, ?_⟩
          · dsimp only
            rw [List.countP_append, List.countP_append, hfirst0, hcount]
            rfl
          · rw [List.getLast?_append]
            rfl
        · obtain ⟨hrnz, hir, hrlen, -⟩ := findSwap_some a i j r hfs
          have hswq : entry (swapRows a i r) i j = entry a r j := by
            unfold entry
            rw [swapRows_getD_fst a i r (by omega) hrlen]
          rcases hne : normElim latex (swapRows a i r) i j a.length with _ | ⟨a3, fr⟩
          · rw [normElim_none_iff, hswq] at hne
            exact absurd hne hrnz
          · have hsw : Rect n (swapRows a i r) := rect_swapRows hrect (by omega) hrlen
            have hrect3 : Rect n a3 := rect_normElim _ _ _ _ _ _ _ hsw hne
            have hlen3 : a3.length = a.length := by
              rw [normElim_length _ _ _ _ _ _ _ hne, length_swapRows]
            obtain ⟨hcount, mo, hlast⟩ := ih a3 (i+1) (j+1) hrect3 (by omega) (by omega)
              (by omega) (by omega)
            obtain ⟨hpne, h3a, h3fr⟩ := normElim_some_inv _ _ _ _ _ _ _ hne
            rw [gaussGo_swap_some latex f a i j r a3 fr hb hp hfs hne]
            refine ⟨?_, mo, ?_⟩
            · dsimp only
              subst h3fr
              rw [List.countP_append, List.countP_append, hfirst0, hcount]
              rfl
            · rw [List.getLast?_append, hlast]
              rfl
      · rcases hne : normElim latex a i j a.length with _ | ⟨a3, fr⟩
        · rw [normElim_none_iff] at hne
          exact absurd hne hp
        · have hrect3 : Rect n a3 := rect_normElim _ _ _ _ _ _ _ hrect hne
          have hlen3 : a3.length = a.length := normElim_length _ _ _ _ _ _ _ hne
          obtain ⟨hcount, mo, hlast⟩ := ih a3 (i+1) (j+1) hrect3 (by omega) (by omega)
            (by omega) (by omega)
          obtain ⟨hpne, h3a, h3fr⟩ := normElim_some_inv _ _ _ _ _ _ _ hne
          rw [gaussGo_nopivot latex f a i j a3 fr hb hp hne]
          refine ⟨?_, mo, ?_⟩
          · dsimp only
            subst h3fr
            rw [List.countP_append, List.countP_append, hfirst0, hcount]
            rfl
          · rw [List.getLast?_append, hlast]
            rfl

/-! ### The formatting flag does not influence snapshots or explanation keys -/

theorem normElim_latex_shape (latex : Bool) (a1 : Mat) (i j m : Nat) :
    (normElim latex a1 i j m).map (fun p => (p.1, p.2.map frameShape)) =
    (normElim false a1 i j m).map (fun p => (p.1, p.2.map frameShape)) := by
  by_cases hp : entry a1 i j = 0
  · rw [normElim_none _ _ _ _ _ hp, normElim_none _ _ _ _ _ hp]
  · rw [normElim_some _ _ _ _ _ hp, normElim_some _ _ _ _ _ hp]
    dsimp only [Option.map]
    rw [elimLoop_fst_latex]
    simp [frameShape, elimLoop_keys]

theorem gaussGo_latex_shape (latex : Bool) (f : Nat) :
    ∀ (a : Mat) (i j : Nat),
      (gaussGo latex f a i j).1.map frameShape = (gaussGo false f a i j).1.map frameShape ∧
      (gaussGo latex f a i j).2 = (gaussGo false f a i j).2 := by
  induction f with
  | zero => exact fun a i j => ⟨rfl, rfl⟩
  | succ f ih =>
    intro a i j
    by_cases hb : i = a.length ∨ j = width a
    · rw [gaussGo_boundary latex f a i j hb, gaussGo_boundary false f a i j hb]
      exact ⟨rfl, rfl⟩
    · by_cases hp : entry a i j = 0
      · rcases hfs : findSwap a i j with _ | r
        · obtain ⟨hq1, hq2⟩ := ih a i (j+1)
          have key := normElim_latex_shape latex ((gaussGo latex f a i (j+1)).2) i j a.length
          rw [hq2] at key
          rcases hne : normElim latex (gaussGo latex f a i (j+1)).2 i j a.length
            with _ | ⟨a3, fr⟩
          · have hnef : normElim false (gaussGo false f a i (j+1)).2 i j a.length = none := by
              rw [normElim_none_iff] at hne ⊢
              rw [← hq2]
              exact hne
            rw [gaussGo_noswap_none latex f a i j hb hp hfs hne,
              gaussGo_noswap_none false f a i j hb hp hfs hnef]
            dsimp only
            refine ⟨?_, hq2⟩
            rw [List.map_append, List.map_append, List.map_append, List.map_append,
              hq1, hq2]
          · rw [hq2] at hne
            rcases hnef : normElim false (gaussGo false f a i (j+1)).2 i j a.length
              with _ | ⟨a3f, frf⟩
            · rw [hne] at key
              rw [hnef] at key
              cases key
            · rw [hne, hnef] at key
              simp only [Option.map_some', Option.some.injEq, Prod.mk.injEq] at key
              obtain ⟨ka, kfr⟩ := key
              subst ka
              obtain ⟨hr1, hr2⟩ := ih a3 (i+1) (j+1)
              rw [← hq2] at hne
              rw [gaussGo_noswap_some latex f a i j a3 fr hb hp hfs hne,
                gaussGo_noswap_some false f a i j a3 frf hb hp hfs hnef]
              dsimp only
              refine ⟨?_, hr2⟩
              rw [List.map_append, List.map_append, List.map_append,
                List.map_append, List.map_append, List.map_append, hq1, hr1, kfr]
        · have key := normElim_latex_shape latex (swapRows a i r) i j a.length
          rcases hne : normElim latex (swapRows a i r) i j a.length with _ | ⟨a3, fr⟩
          · have hnef : normElim false (swapRows a i r) i j a.length = none := by
              rw [normElim_none_iff] at hne ⊢
              exact hne
            rw [gaussGo_swap_none latex f a i j r hb hp hfs hne,
              gaussGo_swap_none false f a i j r hb hp hfs hnef]
            refine ⟨?_, rfl⟩
            simp [frameShape]
          · rcases hnef : normElim false (swapRows a i r) i j a.length with _ | ⟨a3f, frf⟩
            · rw [hne, hnef] at key
              cases key
            · rw [hne, hnef] at key
              simp only [Option.map_some', Option.some.injEq, Prod.mk.injEq] at key
              obtain ⟨ka, kfr⟩ := key
              subst ka
              obtain ⟨hr1, hr2⟩ := ih a3 (i+1) (j+1)
              rw [gaussGo_swap_some latex f a i j r a3 fr hb hp hfs hne,
                gaussGo_swap_some false f a i j r a3 frf hb hp hfs hnef]
              dsimp only
              refine ⟨?_, hr2⟩
              rw [List.map_append, List.map_append, List.map_append, List.map_append,
                List.map_cons, List.map_cons, hr1, kfr]
              simp [frameShape]
      · have key := normElim_latex_shape latex a i j a.length
        rcases hne : normElim latex a i j a.length with _ | ⟨a3, fr⟩
        · rw [normElim_none_iff] at hne
          exact absurd hne hp
        · rcases hnef : normElim false a i j a.length with _ | ⟨a3f, frf⟩
          · rw [normElim_none_iff] at hnef
            exact absurd hnef hp
          · rw [hne, hnef] at key
            simp only [Option.map_some', Option.some.injEq, Prod.mk.injEq] at key
            obtain ⟨ka, kfr⟩ := key
            subst ka
            obtain ⟨hr1, hr2⟩ := ih a3 (i+1) (j+1)
            rw [gaussGo_nopivot latex f a i j a3 fr hb hp hne,
              gaussGo_nopivot false f a i j a3 frf hb hp hnef]
            dsimp only
            refine ⟨?_, hr2⟩
            rw [List.map_append, List.map_append, List.map_append, List.map_append,
              hr1, kfr]

/-! ### Pivot normalization facts -/

theorem rect_set_divRow {n : Nat} (a1 : Mat) (i : Nat) (d : Rat) (hrect : Rect n a1)
    (hi : i < a1.length) : Rect n (a1.set i (divRow (a1.getD i []) d)) := by
  intro row hrow
  rcases List.mem_or_eq_of_mem_set hrow with h2 | h2
  · exact hrect row h2
  · subst h2
    rw [length_divRow]
    exact rect_getD_length hrect hi

theorem normElim_pivot_one {n : Nat} (latex : Bool) (a1 : Mat) (i j m : Nat) (a3 : Mat)
    (fr : List Frame) (hrect : Rect n a1) (hj : j < n)
    (h : normElim latex a1 i j m = some (a3, fr)) : entry a3 i j = 1 := by
  obtain ⟨hpne, h3a, -⟩ := normElim_some_inv _ _ _ _ _ _ _ h
  have hi : i < a1.length := entry_ne_zero_lt a1 i j hpne
  have hnotin : i ∉ List.range' (i+1) (m - (i+1)) := by
    intro hmem
    rw [List.mem_range'_1] at hmem
    omega
  rw [h3a]
  unfold entry
  rw [elimLoop_getD_not_mem _ _ _ _ _ i hnotin,
    getD_set_self _ _ _ _ hi,
    divRow_getD _ _ _ (by rw [rect_getD_length hrect hi]; omega)]
  exact div_self hpne

theorem normElim_col_zero_below {n : Nat} (latex : Bool) (a1 : Mat) (i j : Nat) (a3 : Mat)
    (fr : List Frame) (hrect : Rect n a1) (hj : j < n)
    (h : normElim latex a1 i j a1.length = some (a3, fr)) :
    ∀ k, i < k → entry a3 k j = 0 := by
  obtain ⟨hpne, h3a, -⟩ := normElim_some_inv _ _ _ _ _ _ _ h
  have hi : i < a1.length := entry_ne_zero_lt a1 i j hpne
  have hrect2 : Rect n (a1.set i (divRow (a1.getD i []) (entry a1 i j))) :=
    rect_set_divRow a1 i _ hrect hi
  have hpiv1 : entry (a1.set i (divRow (a1.getD i []) (entry a1 i j))) i j = 1 := by
    rw [entry_set_self _ _ hi, divRow_getD _ _ _ (by rw [rect_getD_length hrect hi]; omega)]
    exact div_self hpne
  have hlen3 : a3.length = a1.length := normElim_length _ _ _ _ _ _ _ h
  intro k hk
  by_cases hklen : k < a1.length
  · have hkmem : k ∈ List.range' (i+1) (a1.length - (i+1)) := by
      rw [List.mem_range'_1]
      omega
    rw [h3a]
    refine elimLoop_col_zero latex i j _ _ hrect2 (by simpa using hi) hj hpiv1
      (List.nodup_range' _ _) ?_ ?_ k hkmem
    · intro hmem
      rw [List.mem_range'_1] at hmem
      omega
    · intro k' hk'
      rw [List.mem_range'_1] at hk'
      rw [List.length_set]
      omega
  · exact entry_of_length_le a3 k j (by omega)

/-! ### The zero-block invariant along the call graph -/

theorem reaches_invariant {n : Nat} (latex : Bool) {f : Nat} {a : Mat} {i j : Nat}
    {a' : Mat} {i' j' : Nat} (h : Reaches latex f a i j a' i' j') :
    Rect n a → 0 < a.length → i ≤ a.length → j ≤ n → ZeroBlock a i j →
    Rect n a' ∧ a'.length = a.length ∧ i' ≤ a'.length ∧ j' ≤ n ∧ ZeroBlock a' i' j' := by
  induction h with
  | here f a i j =>
    intro h1 h2 h3 h4 h5
    exact ⟨h1, rfl, h3, h4, h5⟩
  | skip f a i j a' i' j' hb hp hs hr ih =>
    intro h1 h2 h3 h4 h5
    have hwidth : width a = n := rect_width h1 h2
    have hjn : j < n := by
      rcases not_or.mp hb with ⟨-, hx⟩
      rw [hwidth] at hx
      omega
    have h5' : ZeroBlock a i (j+1) := by
      intro r c hrle hc
      rcases Nat.lt_or_ge c j with hcj | hcj
      · exact h5 r c hrle hcj
      · have hcj' : c = j := by omega
        subst hcj'
        exact findSwap_none_all a i c hs hp r hrle
    exact ih h1 h2 h3 (by omega) h5'
  | step f a a1 i j a3 fr a' i' j' hb hcase hne hr ih =>
    intro h1 h2 h3 h4 h5
    have hwidth : width a = n := rect_width h1 h2
    have hjn : j < n := by
      rcases not_or.mp hb with ⟨-, hx⟩
      rw [hwidth] at hx
      omega
    have hilen : i < a.length := by
      rcases not_or.mp hb with ⟨hx, -⟩
      omega
    have hpne : entry a1 i j ≠ 0 := (normElim_some_inv _ _ _ _ _ _ _ hne).1
    have ha1 : Rect n a1 ∧ a1.length = a.length ∧ ZeroBlock a1 i j := by
      rcases hcase with ⟨hp, he⟩ | ⟨hp, r, hfs, he⟩ | ⟨hp, hfs, he⟩
      · subst he
        exact ⟨h1, rfl, h5⟩
      · obtain ⟨-, hir, hrlen, -⟩ := findSwap_some a i j r hfs
        subst he
        refine ⟨rect_swapRows h1 (by omega) hrlen, length_swapRows a i r, ?_⟩
        intro rr c hrr hc
        exact swapRows_colzero a i r c i (Nat.le_refl i) hir hrlen
          (fun t ht => h5 t c ht hc) rr hrr
      · exfalso
        have hz : ∀ t, i ≤ t → entry a t j = 0 := findSwap_none_all a i j hfs hp
        have : entry a1 i j = 0 := by
          rw [he]
          exact gaussGo_colzero latex f a i (j+1) j i (Nat.le_refl i) hz i (Nat.le_refl i)
        exact hpne this
    obtain ⟨ha1rect, ha1len, ha1zb⟩ := ha1
    have hnel : normElim latex a1 i j a1.length = some (a3, fr) := by
      rw [ha1len]
      exact hne
    have ha3rect : Rect n a3 := rect_normElim _ _ _ _ _ _ _ ha1rect hne
    have ha3len : a3.length = a.length := by
      rw [normElim_length _ _ _ _ _ _ _ hne, ha1len]
    have ha3zb : ZeroBlock a3 (i+1) (j+1) := by
      intro r c hrle hc
      rcases Nat.lt_or_ge c j with hcj | hcj
      · exact normElim_colzero _ _ _ _ _ _ _ hne c i (Nat.le_refl i)
          (fun t ht => ha1zb t c ht hcj) r (by omega)
      · have hcj' : c = j := by omega
        subst hcj'
        exact normElim_col_zero_below latex a1 i c a3 fr ha1rect hjn hnel r (by omega)
    obtain ⟨g1, g2, g3, g4, g5⟩ := ih ha3rect (by omega) (by omega) (by omega) ha3zb
    exact ⟨g1, by omega, g3, g4, g5⟩

/-! ### Re-running the algorithm on a final matrix changes nothing -/

theorem gaussGo_rerun_main {n : Nat} (latex : Bool) (f' : Nat) (F : Mat) (i j : Nat)
    (hFrect : Rect n F) (hFm : 0 < F.length) (hilen : i < F.length) (hjn : j < n)
    (hF1 : entry F i j = 1) (hFcol : ∀ t, i < t → entry F t j = 0)
    (hrec2 : (gaussGo latex f' F (i+1) (j+1)).2 = F)
    (hrecmem : ∀ x ∈ (gaussGo latex f' F (i+1) (j+1)).1, x.1 = none ∨ x.1 = some F) :
    (gaussGo latex (f'+1) F i j).2 = F ∧
    ∀ x ∈ (gaussGo latex (f'+1) F i j).1, x.1 = none ∨ x.1 = some F := by
  have hwF : width F = n := rect_width hFrect hFm
  have hbF : ¬(i = F.length ∨ j = width F) := by
    rw [hwF]
    push_neg
    omega
  have hne0 : entry F i j ≠ 0 := by
    rw [hF1]
    exact one_ne_zero
  have ha2 : F.set i (divRow (F.getD i []) (entry F i j)) = F := by
    rw [hF1, divRow_one, set_getD_self _ _ _ hilen]
  have helim : (elimLoop latex i j F (List.range' (i+1) (F.length - (i+1)))).1 = F := by
    refine elimLoop_id latex i j F _ ?_ hFrect hilen ?_
    · intro k hk
      rw [List.mem_range'_1] at hk
      exact hFcol k (by omega)
    · intro k hk
      rw [List.mem_range'_1] at hk
      omega
  have hne1 := normElim_some latex F i j F.length hne0
  rw [ha2, helim] at hne1
  rw [gaussGo_nopivot latex f' F i j F _ hbF hne0 hne1]
  dsimp only
  refine ⟨hrec2, ?_⟩
  intro x hx
  rw [List.mem_append, List.mem_append] at hx
  rcases hx with (hx | hx) | hx
  · by_cases h00 : i = 0 ∧ j = 0
    · rw [if_pos h00] at hx
      rcases List.mem_singleton.mp hx with rfl
      right
      rfl
    · rw [if_neg h00] at hx
      cases hx
  · rcases List.mem_cons.mp hx with rfl | hx
    · right; rfl
    · rcases List.mem_cons.mp hx with rfl | hx
      · right; rfl
      · cases hx
  · exact hrecmem x hx

theorem gaussGo_rerun {n : Nat} (latex : Bool) (f : Nat) :
    ∀ (f' : Nat) (a : Mat) (i j : Nat), Rect n a → 0 < a.length → i ≤ a.length → j ≤ n →
      n + 1 ≤ f + j → n + 1 ≤ f' + j →
      (gaussGo latex f' (gaussGo latex f a i j).2 i j).2 = (gaussGo latex f a i j).2 ∧
      ∀ x ∈ (gaussGo latex f' (gaussGo latex f a i j).2 i j).1,
        x.1 = none ∨ x.1 = some (gaussGo latex f a i j).2 := by
  induction f with
  | zero =>
    intro f' a i j _ _ _ hj hf _
    omega
  | succ f ih =>
    intro f' a i j hrect hm hi hj hf hf'
    cases f' with
    | zero => omega
    | succ f' =>
      by_cases hb : i = a.length ∨ j = width a
      · rw [gaussGo_boundary latex f a i j hb]
        dsimp only
        rw [gaussGo_boundary latex f' a i j hb]
        dsimp only
        refine ⟨rfl, ?_⟩
        intro x hx
        rw [List.mem_append] at hx
        rcases hx with hx | hx
        · by_cases h00 : i = 0 ∧ j = 0
          · rw [if_pos h00] at hx
            rcases List.mem_singleton.mp hx with rfl
            right
            rfl
          · rw [if_neg h00] at hx
            cases hx
        · rcases List.mem_singleton.mp hx with rfl
          left
          rfl
      · have hwidth : width a = n := rect_width hrect hm
        have hjn : j < n := by
          rcases not_or.mp hb with ⟨-, hx⟩
          rw [hwidth] at hx
          omega
        have hilen : i < a.length := by
          rcases not_or.mp hb with ⟨hx, -⟩
          omega
        by_cases hp : entry a i j = 0
        · rcases hfs : findSwap a i j with _ | r
          · -- degenerate column: the run falls through with a zero divisor
            have hz : ∀ t, i ≤ t → entry a t j = 0 := findSwap_none_all a i j hfs hp
            have hdiv : entry (gaussGo latex f a i (j+1)).2 i j = 0 :=
              gaussGo_colzero latex f a i (j+1) j i (Nat.le_refl i) hz i (Nat.le_refl i)
            have hne : normElim latex (gaussGo latex f a i (j+1)).2 i j a.length = none :=
              normElim_none _ _ _ _ _ hdiv
            rw [gaussGo_noswap_none latex f a i j hb hp hfs hne]
            dsimp only
            obtain ⟨hq2, hqmem⟩ := ih f' a i (j+1) hrect hm hi (by omega) (by omega)
              (by omega)
            set F := (gaussGo latex f a i (j+1)).2 with hFdef
            have hFrect : Rect n F := rect_gaussGo latex f a i (j+1) hrect
            have hFlen : F.length = a.length := gaussGo_length latex f a i (j+1)
            have hFz : ∀ t, i ≤ t → entry F t j = 0 :=
              gaussGo_colzero latex f a i (j+1) j i (Nat.le_refl i) hz
            have hbF : ¬(i = F.length ∨ j = width F) := by
              rw [rect_width hFrect (by omega), hFlen]
              push_neg
              omega
            have hpF : entry F i j = 0 := hFz i (Nat.le_refl i)
            have hfsF : findSwap F i j = none := by
              rw [findSwap, List.find?_eq_none]
              intro x hx
              rw [List.mem_range'_1] at hx
              intro hcon
              exact (of_decide_eq_true hcon) (hFz x (by omega))
            have hneF : normElim latex (gaussGo latex f' F i (j+1)).2 i j F.length
                = none := by
              rw [hq2]
              exact normElim_none _ _ _ _ _ hpF
            rw [gaussGo_noswap_none latex f' F i j hbF hpF hfsF hneF]
            dsimp only
            refine ⟨hq2, ?_⟩
            intro x hx
            rw [List.mem_append, List.mem_append] at hx
            rcases hx with (hx | hx) | hx
            · by_cases h00 : i = 0 ∧ j = 0
              · rw [if_pos h00] at hx
                rcases List.mem_singleton.mp hx with rfl
                right
                rfl
              · rw [if_neg h00] at hx
                cases hx
            · exact hqmem x hx
            · rcases List.mem_singleton.mp hx with rfl
              right
              rw [hq2]
          · -- swap found: the pivot row r is moved up, then the normal round runs
            obtain ⟨hrnz, hir, hrlen, -⟩ := findSwap_some a i j r hfs
            have hswq : entry (swapRows a i r) i j = entry a r j := by
              unfold entry
              rw [swapRows_getD_fst a i r (by omega) hrlen]
            rcases hne : normElim latex (swapRows a i r) i j a.length with _ | ⟨a3, fr⟩
            · rw [normElim_none_iff, hswq] at hne
              exact absurd hne hrnz
            · have hsw : Rect n (swapRows a i r) := rect_swapRows hrect (by omega) hrlen
              have hswlen : (swapRows a i r).length = a.length := length_swapRows a i r
              have hnel : normElim latex (swapRows a i r) i j (swapRows a i r).length
                  = some (a3, fr) := by
                rw [hswlen]
                exact hne
              have hrect3 : Rect n a3 := rect_normElim _ _ _ _ _ _ _ hsw hne
              have hlen3 : a3.length = a.length := by
                rw [normElim_length _ _ _ _ _ _ _ hne, hswlen]
              rw [gaussGo_swap_some latex f a i j r a3 fr hb hp hfs hne]
              dsimp only
              set F := (gaussGo latex f a3 (i+1) (j+1)).2 with hFdef
              have hFrect : Rect n F := rect_gaussGo latex f a3 (i+1) (j+1) hrect3
              have hFlen : F.length = a.length := by
                rw [hFdef, gaussGo_length, hlen3]
              have hFrowi : F.getD i [] = a3.getD i [] :=
                gaussGo_getD_lt latex f a3 (i+1) (j+1) i (by omega)
              have hF1 : entry F i j = 1 := by
                unfold entry
                rw [hFrowi]
                exact normElim_pivot_one latex (swapRows a i r) i j a.length a3 fr hsw hjn hne
              have hFcol : ∀ t, i < t → entry F t j = 0 := by
                intro t ht
                rcases Nat.lt_or_ge t F.length with htl | htl
                · exact gaussGo_colzero latex f a3 (i+1) (j+1) j (i+1) (Nat.le_refl _)
                    (fun s hs => normElim_col_zero_below latex (swapRows a i r) i j a3 fr
                      hsw hjn hnel s (by omega)) t (by omega)
                · exact entry_of_length_le F t j (by omega)
              obtain ⟨hrec2, hrecmem⟩ := ih f' a3 (i+1) (j+1) hrect3 (by omega) (by omega)
                (by omega) (by omega) (by omega)
              exact gaussGo_rerun_main latex f' F i j hFrect (by omega) (by omega) hjn hF1
                hFcol hrec2 hrecmem
        · -- nonzero pivot: the normal round runs directly
          rcases hne : normElim latex a i j a.length with _ | ⟨a3, fr⟩
          · rw [normElim_none_iff] at hne
            exact absurd hne hp
          · have hnel : normElim latex a i j a.length = some (a3, fr) := hne
            have hrect3 : Rect n a3 := rect_normElim _ _ _ _ _ _ _ hrect hne
            have hlen3 : a3.length = a.length := normElim_length _ _ _ _ _ _ _ hne
            rw [gaussGo_nopivot latex f a i j a3 fr hb hp hne]
            dsimp only
            set F := (gaussGo latex f a3 (i+1) (j+1)).2 with hFdef
            have hFrect : Rect n F := rect_gaussGo latex f a3 (i+1) (j+1) hrect3
            have hFlen : F.length = a.length := by
              rw [hFdef, gaussGo_length, hlen3]
            have hFrowi : F.getD i [] = a3.getD i [] :=
              gaussGo_getD_lt latex f a3 (i+1) (j+1) i (by omega)
            have hF1 : entry F i j = 1 := by
              unfold entry
              rw [hFrowi]
              exact normElim_pivot_one latex a i j a.length a3 fr hrect hjn hne
            have hFcol : ∀ t, i < t → entry F t j = 0 := by
              intro t ht
              rcases Nat.lt_or_ge t F.length with htl | htl
              · exact gaussGo_colzero latex f a3 (i+1) (j+1) j (i+1) (Nat.le_refl _)
                  (fun s hs => normElim_col_zero_below latex a i j a3 fr
                    hrect hjn hnel s (by omega)) t (by omega)
              · exact entry_of_length_le F t j (by omega)
            obtain ⟨hrec2, hrecmem⟩ := ih f' a3 (i+1) (j+1) hrect3 (by omega) (by omega)
              (by omega) (by omega) (by omega)
            exact gaussGo_rerun_main latex f' F i j hFrect (by omega) (by omega) hjn hF1
              hFcol hrec2 hrecmem

/-! ## Claim theorems -/

/-- C1: the claim asserts the final non-sentinel frame has an identity-like
left block and, for input rows `1;1;3` and `2;-1;0`, equals
`[[1,0,1],[0,1,2]]`.  The code eliminates only the rows *below* each pivot
(`for k in range(i+1, m)`), so row 0 keeps its entry in pivot column 1 and
the run ends on `[[1,1,3],[0,1,2]]`: upper-triangular with unit pivots, not
the reduced form its own docstring (Gauss-Jordan) promises.  This theorem
evaluates the full trace at the failing input and exhibits the final
non-sentinel frame. -/
theorem C1_final_frame_of_unique_solution_run :
    gauss false [[1,1,3],[2,-1,0]] =
      [(some [[1,1,3],[2,-1,0]], none),
       (some [[1,1,3],[2,-1,0]], some [(0, Exp.divide 1 false)]),
       (some [[1,1,3],[0,-3,-6]], some [(1, Exp.minus 2 0 false)]),
       (some [[1,1,3],[0,1,2]], some [(1, Exp.divide (-3) false)]),
       (some [[1,1,3],[0,1,2]], some []),
       (none, some [])] ∧
    ((gauss false [[1,1,3],[2,-1,0]]).filter (fun fr => !fr.1.isNone)).getLast? =
      some (some [[1,1,3],[0,1,2]], some []) ∧
    ([[1,1,3],[0,1,2]] : Mat) ≠ [[1,0,1],[0,1,2]] := by
  refine ⟨?_, ?_, ?_⟩
  · norm_num [gauss, gaussGo, normElim, elimLoop, findSwap, swapRows, divRow, subRow,
      entry, width]
  · norm_num [gauss, gaussGo, normElim, elimLoop, findSwap, swapRows, divRow, subRow,
      entry, width]
  · decide

/-- C2 counterexample: on the valid 1×1 matrix `[[0]]` the pivot is zero and
no swap row exists, so by the claim the level should recurse, forward the
recursion's frames (the sentinel) and return, giving the two-frame trace
`[initial, sentinel]`.  In fact the `for`-`else` has no `return`: control
falls through to normalization, the zero divisor is caught, and a third
frame `(matrix, empty-explanation)` is yielded — the defensive zero-divisor
branch IS executed. -/
theorem C2_counterexample :
    gauss false [[0]] = [(some [[0]], none), (none, some []), (some [[0]], some [])] ∧
    (gauss false [[0]]).length ≠ 2 := by
  decide

/-- C2 amended: when the pivot `matrix[i][j]` is zero and no row below has a
non-zero entry in column `j`, `gauss` recurses with the same `i` and `j+1`
and forwards every frame of that recursion; it then *falls through* to the
normalization step, where the pivot is still zero (the recursion preserves
the all-zero column), so the zero-divisor branch executes, yielding one
further frame `(unchanged matrix, empty explanation)` before the level
returns.  The zero-divisor branch is thus exercised by every valid input
with a degenerate column, rather than never. -/
theorem C2_zero_column_falls_through (n : Nat) (latex : Bool) (f : Nat) (a : Mat)
    (i j : Nat) (hrect : Rect n a) (hi : i < a.length) (hj : j < n)
    (hp : entry a i j = 0) (hs : findSwap a i j = none) :
    gaussGo latex (f+1) a i j =
      ((if i = 0 ∧ j = 0 then [((some a : Option Mat), (none : Option Expl))] else []) ++
        (gaussGo latex f a i (j+1)).1 ++ [(some (gaussGo latex f a i (j+1)).2, some [])],
       (gaussGo latex f a i (j+1)).2) := by
  have hb : ¬(i = a.length ∨ j = width a) := by
    rw [rect_width hrect (by omega)]
    push_neg
    omega
  have hz := findSwap_none_all a i j hs hp
  have hdiv : entry (gaussGo latex f a i (j+1)).2 i j = 0 :=
    gaussGo_colzero latex f a i (j+1) j i (Nat.le_refl i) hz i (Nat.le_refl i)
  exact gaussGo_noswap_none latex f a i j hb hp hs (normElim_none _ _ _ _ _ hdiv)

/-- C2 witness: the amended statement instantiated at the matrix `[[0]]`. -/
theorem C2_zero_column_falls_through_witness :
    Rect 1 [[(0:Rat)]] ∧ 0 < List.length [[(0:Rat)]] ∧ entry [[(0:Rat)]] 0 0 = 0 ∧
    findSwap [[(0:Rat)]] 0 0 = none ∧
    gaussGo false (1+1) [[(0:Rat)]] 0 0 =
      ((if 0 = 0 ∧ 0 = 0 then [((some [[(0:Rat)]] : Option Mat), (none : Option Expl))]
          else []) ++
        (gaussGo false 1 [[(0:Rat)]] 0 1).1 ++
        [(some (gaussGo false 1 [[(0:Rat)]] 0 1).2, some [])],
       (gaussGo false 1 [[(0:Rat)]] 0 1).2) :=
  ⟨by decide, by decide, by decide, by decide,
   C2_zero_column_falls_through 1 false 1 [[(0:Rat)]] 0 0 (by decide) (by decide)
     (by decide) (by decide) (by decide)⟩

/-- C3 counterexample: for the valid input `[[0]]` the sentinel `(None, {})`
is emitted as the second of three frames; the frame `(matrix, {})` from the
zero-divisor fall-through of the outer level follows it, so the sentinel is
not the last frame of the sequence. -/
theorem C3_counterexample :
    (gauss false [[0]]).get? 1 = some sentinel ∧
    (gauss false [[0]]).getLast? = some (some [[0]], some []) ∧
    (gauss false [[0]]).getLast? ≠ some sentinel := by
  refine ⟨?_, ?_, ?_⟩ <;> decide

/-- C3 amended: for every valid input matrix the sentinel frame (absent
matrix, empty explanation) is emitted exactly once — when `i` reaches `m` or
`j` reaches `n` — but it need not be last: every enclosing recursion level
that skipped a fully-zero column appends one further frame (unchanged
matrix, empty explanation) after it.  The trace always ends with a frame
whose explanation is the empty mapping: the sentinel itself when no
degenerate column was skipped at an outer level, a zero-divisor frame
otherwise. -/
theorem C3_sentinel_once_and_last_frame_empty (n : Nat) (latex : Bool) (a : Mat)
    (hrect : Rect n a) (hm : 0 < a.length) :
    (gauss latex a).countP (fun fr => fr.1.isNone) = 1 ∧
    ∃ mo, (gauss latex a).getLast? = some (mo, some []) := by
  have hw : width a = n := rect_width hrect hm
  unfold gauss
  rw [hw]
  exact gaussGo_sentinel latex (n+1) a 0 0 hrect hm (by omega) (by omega) (by omega)

/-- C3 witness: the amended statement instantiated at the matrix `[[0]]`. -/
theorem C3_sentinel_once_witness :
    Rect 1 [[(0:Rat)]] ∧ 0 < List.length [[(0:Rat)]] ∧
    ((gauss false [[(0:Rat)]]).countP (fun fr => fr.1.isNone) = 1 ∧
     ∃ mo, (gauss false [[(0:Rat)]]).getLast? = some (mo, some [])) :=
  ⟨by decide, by decide,
   C3_sentinel_once_and_last_frame_empty 1 false [[(0:Rat)]] (by decide) (by decide)⟩

/-- C4: the claim asserts that after the elimination step of any round with
pivot `(i, j)`, every row `k ≠ i` has `matrix[k][j] = 0`.  The elimination
loop only processes `k` in `range(i+1, m)`, so rows *above* the pivot keep
their entries.  At the failing input `[[1,1,3],[2,-1,0]]`, frame 4 of the
trace is the elimination frame of the round with pivot `(1, 1)`, and in its
snapshot row 0 still holds `1 ≠ 0` in pivot column 1. -/
theorem C4_elimination_round_leaves_row_above :
    (gauss false [[1,1,3],[2,-1,0]]).get? 4 = some (some [[1,1,3],[0,1,2]], some []) ∧
    entry [[1,1,3],[0,1,2]] 0 1 = 1 ∧ (1 : Rat) ≠ 0 := by
  refine ⟨?_, ?_, ?_⟩
  · norm_num [gauss, gaussGo, normElim, elimLoop, findSwap, swapRows, divRow, subRow,
      entry, width]
  · decide
  · decide

/-- C5: `gauss` never lets the division-by-zero condition escape: inside the
embedding the `ZeroDivisionError` of the source is exactly the `none` result
of `normElim`, raised precisely when the captured divisor `a1[i][j]` is
zero, and the caller's handler converts it into the frame
`(unchanged matrix, empty explanation)` followed by termination of that
level.  The singular input `[[0,1,5],[0,2,10]]` (column 0 entirely zero)
runs to completion: column 0 is never consumed (`j` advances without `i`),
row 2 is reduced to a zero row, and the two zero-divisor frames close the
trace without any error escaping. -/
theorem C5_division_by_zero_caught :
    (∀ (latex : Bool) (a1 : Mat) (i j m : Nat),
        normElim latex a1 i j m = none ↔ entry a1 i j = 0) ∧
    gauss false [[0,1,5],[0,2,10]] =
      [(some [[0,1,5],[0,2,10]], none),
       (some [[0,1,5],[0,2,10]], some [(0, Exp.divide 1 false)]),
       (some [[0,1,5],[0,0,0]], some [(1, Exp.minus 2 0 false)]),
       (none, some []),
       (some [[0,1,5],[0,0,0]], some []),
       (some [[0,1,5],[0,0,0]], some [])] := by
  refine ⟨fun latex a1 i j m => normElim_none_iff latex a1 i j m, ?_⟩
  norm_num [gauss, gaussGo, normElim, elimLoop, findSwap, swapRows, divRow, subRow,
    entry, width]

/-- C6: when the pivot `matrix[i][j]` is zero and the search finds a row,
the row found is the first `r` in `i+1..m-1` with `matrix[r][j] ≠ 0` (every
row strictly between is zero in column `j`); rows `i` and `r` are exchanged
in place, every other row is untouched, and the frame emitted right after
the initial frame carries the swapped snapshot with the explanation entry
`{i: swap-explanation(i, r)}` — referencing exactly the pair `(i, r)`. -/
theorem C6_swap_picks_first_nonzero_row (latex : Bool) (f : Nat) (a : Mat) (i j r : Nat)
    (hp : entry a i j = 0) (hs : findSwap a i j = some r) :
    (i < r ∧ r < a.length ∧ entry a r j ≠ 0 ∧ ∀ t, i < t → t < r → entry a t j = 0) ∧
    (swapRows a i r).getD i [] = a.getD r [] ∧
    (swapRows a i r).getD r [] = a.getD i [] ∧
    (∀ t, t ≠ i → t ≠ r → (swapRows a i r).getD t [] = a.getD t []) ∧
    (¬(i = a.length ∨ j = width a) →
      ∃ rest, (gaussGo latex (f+1) a i j).1 =
        (if i = 0 ∧ j = 0 then [((some a : Option Mat), (none : Option Expl))] else []) ++
          (some (swapRows a i r), some [(i, Exp.swap i r latex)]) :: rest) := by
  obtain ⟨hrnz, hir, hrlen, hmin⟩ := findSwap_some a i j r hs
  refine ⟨⟨hir, hrlen, hrnz, hmin⟩,
    swapRows_getD_fst a i r (by omega) hrlen,
    swapRows_getD_snd a i r hrlen,
    fun t hti htr => swapRows_getD_other a i r t hti htr,
    fun hb => ?_⟩
  rcases hne : normElim latex (swapRows a i r) i j a.length with _ | ⟨a3, fr⟩
  · refine ⟨[(some (swapRows a i r), some [])], ?_⟩
    rw [gaussGo_swap_none latex f a i j r hb hp hs hne]
  · refine ⟨fr ++ (gaussGo latex f a3 (i+1) (j+1)).1, ?_⟩
    rw [gaussGo_swap_some latex f a i j r a3 fr hb hp hs hne]
    dsimp only
    rw [List.append_assoc, List.cons_append]

/-- C6 witness: the statement instantiated at input rows `0;1;5` and
`1;1;8`, where the first frame shows the original matrix and the second the
swap of rows 0 and 1 with explanation referencing `(0, 1)`. -/
theorem C6_swap_picks_first_nonzero_row_witness :
    entry [[0,1,5],[1,1,8]] 0 0 = 0 ∧ findSwap [[0,1,5],[1,1,8]] 0 0 = some 1 ∧
    ¬((0:Nat) = List.length [[(0:Rat),1,5],[1,1,8]] ∨ (0:Nat) = width [[(0:Rat),1,5],[1,1,8]]) ∧
    ∃ rest, (gaussGo false (3+1) [[0,1,5],[1,1,8]] 0 0).1 =
      (if (0:Nat) = 0 ∧ (0:Nat) = 0
        then [((some [[(0:Rat),1,5],[1,1,8]] : Option Mat), (none : Option Expl))] else []) ++
        (some (swapRows [[0,1,5],[1,1,8]] 0 1), some [(0, Exp.swap 0 1 false)]) :: rest :=
  ⟨by decide, by decide, by decide,
   (C6_swap_picks_first_nonzero_row false 3 [[0,1,5],[1,1,8]] 0 0 1 (by decide)
     (by decide)).2.2.2.2 (by decide)⟩

/-- C7 counterexample: the final matrix of the completed run on
`[[1,1,3],[2,-1,0]]` is `[[1,1,3],[0,1,2]]`.  Re-running `gauss` on it does
not yield a single-frame trace with no operations: it emits six frames,
including a normalization frame (divide row 0 by 1) and an elimination
frame (subtract 0 times row 0 from row 1), so divisions and eliminations
are triggered and recorded even though the matrix never changes. -/
theorem C7_counterexample :
    gaussFinal false [[1,1,3],[2,-1,0]] = [[1,1,3],[0,1,2]] ∧
    (gauss false [[1,1,3],[0,1,2]]).length = 6 ∧
    (gauss false [[1,1,3],[0,1,2]]).get? 1 =
      some (some [[1,1,3],[0,1,2]], some [(0, Exp.divide 1 false)]) ∧
    (gauss false [[1,1,3],[0,1,2]]).get? 2 =
      some (some [[1,1,3],[0,1,2]], some [(1, Exp.minus 0 0 false)]) := by
  refine ⟨?_, ?_, ?_, ?_⟩ <;>
    norm_num [gauss, gaussFinal, gaussGo, normElim, elimLoop, findSwap, swapRows,
      divRow, subRow, entry, width]

/-- C7 amended: re-running `gauss` on the final matrix of a completed run
(treated as a fresh input) leaves the matrix fixed and yields a trace in
which every frame's snapshot is that same matrix (or the absent sentinel
matrix): no swap, division or elimination changes any entry.  However the
re-run still performs and records divide-by-one normalizations and
subtract-zero eliminations, and emits the sentinel, so the trace has more
than one frame. -/
theorem C7_rerun_is_fixpoint (n : Nat) (latex : Bool) (a : Mat)
    (hrect : Rect n a) (hm : 0 < a.length) :
    gaussFinal latex (gaussFinal latex a) = gaussFinal latex a ∧
    ∀ x ∈ gauss latex (gaussFinal latex a),
      x.1 = none ∨ x.1 = some (gaussFinal latex a) := by
  have hw : width a = n := rect_width hrect hm
  have e1 : gaussFinal latex a = (gaussGo latex (n+1) a 0 0).2 := by
    unfold gaussFinal
    rw [hw]
  have hFrect : Rect n (gaussFinal latex a) := by
    rw [e1]
    exact rect_gaussGo latex (n+1) a 0 0 hrect
  have hFlen : (gaussFinal latex a).length = a.length := by
    rw [e1]
    exact gaussGo_length latex (n+1) a 0 0
  have e2 : width (gaussFinal latex a) = n := rect_width hFrect (by omega)
  obtain ⟨h1, h2⟩ := gaussGo_rerun latex (n+1) (n+1) a 0 0 hrect hm (by omega) (by omega)
    (by omega) (by omega)
  constructor
  · conv_lhs => rw [gaussFinal, e2, e1]
    rw [e1]
    exact h1
  · intro x hx
    rw [gauss, e2, e1] at hx
    rw [e1]
    exact h2 x hx

/-- C7 witness: the amended statement instantiated at `[[1,1,3],[2,-1,0]]`,
whose completed run ends on `[[1,1,3],[0,1,2]]`. -/
theorem C7_rerun_is_fixpoint_witness :
    Rect 3 [[(1:Rat),1,3],[2,-1,0]] ∧ 0 < List.length [[(1:Rat),1,3],[2,-1,0]] ∧
    (gaussFinal false (gaussFinal false [[1,1,3],[2,-1,0]]) =
        gaussFinal false [[1,1,3],[2,-1,0]] ∧
     ∀ x ∈ gauss false (gaussFinal false [[1,1,3],[2,-1,0]]),
       x.1 = none ∨ x.1 = some (gaussFinal false [[1,1,3],[2,-1,0]])) :=
  ⟨by decide, by decide,
   C7_rerun_is_fixpoint 3 false [[1,1,3],[2,-1,0]] (by decide) (by decide)⟩

/-- C8: for every rectangular input with at least one row and one column the
recursion terminates within `n + 1` nested levels (`j` grows by one on every
recursive call and is bounded by the column count): with any fuel of at
least `n + 1` the embedded generator computes the same finite trace and
final matrix, namely those of `gauss`. -/
theorem C8_terminates_within_width_levels (n : Nat) (latex : Bool) (f : Nat) (a : Mat)
    (hrect : Rect n a) (hm : 0 < a.length) (hn : 0 < n) (hf : n + 1 ≤ f) :
    gaussGo latex f a 0 0 = (gauss latex a, gaussFinal latex a) := by
  have hw : width a = n := rect_width hrect hm
  have hst := gaussGo_fuel_stable latex f (n+1) a 0 0 hrect hm (by omega) (by omega)
    (by omega) (by omega)
  unfold gauss gaussFinal
  rw [hw, hst]

/-- C8 witness: the statement instantiated at the 1×1 matrix `[[1]]` with
fuel 5. -/
theorem C8_terminates_within_width_levels_witness :
    Rect 1 [[(1:Rat)]] ∧ 0 < List.length [[(1:Rat)]] ∧ 0 < 1 ∧ 1 + 1 ≤ 5 ∧
    gaussGo false 5 [[(1:Rat)]] 0 0 = (gauss false [[(1:Rat)]], gaussFinal false [[(1:Rat)]]) :=
  ⟨by decide, by decide, by decide, by decide,
   C8_terminates_within_width_levels 1 false 5 [[(1:Rat)]] (by decide) (by decide)
     (by decide) (by decide)⟩

/-- C9: the formatting-mode flag `produce_latex` flows only into the
explanation texts (the `exp_swap`/`exp_divide`/`exp_minus` calls): for every
input matrix, the sequence of matrix snapshots and the explanation keys of
every frame, as well as the final matrix, are identical between
`produce_latex = True` and `produce_latex = False`. -/
theorem C9_latex_flag_only_affects_texts (latex : Bool) (a : Mat) :
    (gauss latex a).map frameShape = (gauss false a).map frameShape ∧
    gaussFinal latex a = gaussFinal false a :=
  ⟨(gaussGo_latex_shape latex (width a + 1) a 0 0).1,
   (gaussGo_latex_shape latex (width a + 1) a 0 0).2⟩

/-- C10: in a run started as `gauss(a, 0, 0)` on a rectangular matrix, every
invocation `gauss(a, i, j)` reached through the recursion is entered with
the zero block in place: `matrix[r][c] = 0` for all rows `r ≥ i` and columns
`c < j`; moreover each operation of a round — a swap among rows `≥ i`, the
normalization of row `i`, and the subtraction of multiples of row `i` from
the rows below it — preserves the zero block. -/
theorem C10_zero_block_invariant (n : Nat) (latex : Bool) (f : Nat) (a a' : Mat)
    (i' j' : Nat) (hrect : Rect n a) (hm : 0 < a.length)
    (h : Reaches latex f a 0 0 a' i' j') :
    ZeroBlock a' i' j' ∧
    (∀ (b : Mat) (i j r : Nat), i < r → r < b.length → ZeroBlock b i j →
      ZeroBlock (swapRows b i r) i j) ∧
    (∀ (b : Mat) (i j : Nat) (d : Rat), ZeroBlock b i j →
      ZeroBlock (b.set i (divRow (b.getD i []) d)) i j) ∧
    (∀ (b : Mat) (i j : Nat) (ks : List Nat), (∀ k ∈ ks, i < k) → ZeroBlock b i j →
      ZeroBlock (elimLoop latex i j b ks).1 i j) := by
  refine ⟨?_, ?_, ?_, ?_⟩
  · exact (reaches_invariant latex h hrect hm (by omega) (by omega)
      (fun r c hr hc => absurd hc (Nat.not_lt_zero c))).2.2.2.2
  · intro b i j r hir hrlen hzb rr c hrr hc
    exact swapRows_colzero b i r c i (Nat.le_refl i) hir hrlen
      (fun t ht => hzb t c ht hc) rr hrr
  · intro b i j d hzb rr c hrr hc
    by_cases hi : i < b.length
    · by_cases hri : rr = i
      · subst hri
        rw [entry_set_self _ _ hi]
        exact divRow_getD_zero _ _ _ (hzb rr c hrr hc)
      · rw [entry_set_ne _ _ _ _ (fun he => hri he.symm)]
        exact hzb rr c hrr hc
    · rw [List.set_eq_of_length_le (by omega)]
      exact hzb rr c hrr hc
  · intro b i j ks hks hzb rr c hrr hc
    rcases elimLoop_col_pres latex i j c b ks (hzb i c (Nat.le_refl i) hc)
      (fun hmem => absurd (hks i hmem) (Nat.lt_irrefl i)) rr with h2 | h2
    · rw [h2]
      exact hzb rr c hrr hc
    · exact h2

/-- C10 witness: the invariant instantiated on the run over `[[0,1],[0,2]]`,
whose first recursive call (column 0 fully zero) is entered at `(0, 1)` with
column 0 required to be all zero. -/
theorem C10_zero_block_invariant_witness :
    Rect 2 [[(0:Rat),1],[0,2]] ∧ 0 < List.length [[(0:Rat),1],[0,2]] ∧
    ZeroBlock [[(0:Rat),1],[0,2]] 0 1 :=
  ⟨by decide, by decide,
   (C10_zero_block_invariant 2 false 2 [[0,1],[0,2]] [[0,1],[0,2]] 0 1 (by decide)
     (by decide)
     (Reaches.skip 1 [[0,1],[0,2]] 0 0 [[0,1],[0,2]] 0 1 (by decide) (by decide)
       (by decide) (Reaches.here 1 [[0,1],[0,2]] 0 1))).1⟩
